import Mathlib

/-!
Verification development for a small JavaScript repository consisting of
two components: an SVG path editor (`src/svg-path-editor.js`, object
`PathEditor` with `parsePath`, `generatePath`, `updatePath`, ...) and a
preset manager factory (`PresetManagerFactory` with `savePreset`,
`getPreset`, `getPresetNames`, `setup`).

The JavaScript code is shallowly embedded:

* JS strings are `List Char` (wrapped into `String` at the API surface);
* JS numbers are modelled as exact rationals (`ℚ`) extended with `NaN`
  and the two infinities (`JSNum`); double rounding is abstracted away,
  so number-to-string conversion is the exact decimal expansion;
* a JS object property slot is `JVal`: never assigned (`absent`),
  assigned the value `undefined` (`undef`), or assigned a number
  (`defined n`);
* DOM reads are explicit parameters: `generatePath` receives the value
  of `document.getElementById(pathId).getAttribute('d')` as an
  `Option String` (`none` models a `null` attribute);
* the preset store (a plain JS object used as a string-keyed map) is an
  insertion-ordered association list; `Object.keys` ordering (array-index
  keys first, ascending, then string keys in insertion order) is modelled
  explicitly.  Exotic prototype-chain keys such as `"__proto__"` are
  outside the model: the backing object is treated as an own-property map.
-/

/-! ## Character classes (by code point, as in the JS regexes) -/

/-- The regex character class `[0-9]`. -/
def isDig (c : Char) : Bool := 48 ≤ c.toNat && c.toNat ≤ 57

/-- The regex character class `[A-Za-z]` (used as `[^A-Za-z]` in `parsePath`). -/
def isLetter (c : Char) : Bool :=
  (65 ≤ c.toNat && c.toNat ≤ 90) || (97 ≤ c.toNat && c.toNat ≤ 122)

/-- The regex character class `\s` of JavaScript (WhiteSpace and
LineTerminator code points), also the set trimmed by `String.prototype.trim`. -/
def isJsWS (c : Char) : Bool :=
  c.toNat = 32 || (9 ≤ c.toNat && c.toNat ≤ 13) || c.toNat = 160 ||
  c.toNat = 5760 || (8192 ≤ c.toNat && c.toNat ≤ 8202) ||
  c.toNat = 8232 || c.toNat = 8233 || c.toNat = 8239 || c.toNat = 8287 ||
  c.toNat = 12288 || c.toNat = 65279

/-- The separator class `[\s,]` of the `split` regex in `parsePath`. -/
def isSepChar (c : Char) : Bool := isJsWS c || c = ','

/-- The command-letter class `[MmLlCcAaZz]` of the `parsePath` regex. -/
def isCmdChar (c : Char) : Bool :=
  c = 'M' || c = 'm' || c = 'L' || c = 'l' || c = 'C' || c = 'c' ||
  c = 'A' || c = 'a' || c = 'Z' || c = 'z'

/-! ## `String.prototype.trim` -/

def jsTrimLeft (l : List Char) : List Char := l.dropWhile (fun c => isJsWS c)

def jsTrimRight (l : List Char) : List Char :=
  (l.reverse.dropWhile (fun c => isJsWS c)).reverse

/-- JS `s.trim()`. -/
def jsTrimList (l : List Char) : List Char := jsTrimRight (jsTrimLeft l)

/-! ## JS numbers

A JS number is a double; we model finite doubles as exact rationals and
keep `NaN` and the infinities as separate constructors. -/

inductive JSNum where
  | nan : JSNum
  | posInf : JSNum
  | negInf : JSNum
  | num : ℚ → JSNum
deriving DecidableEq, Repr

/-- Decimal value of a digit string (most significant first). -/
def digitsValNat (l : List Char) : Nat :=
  l.foldl (fun a c => a * 10 + (c.toNat - 48)) 0

/-- Decimal digit characters of a natural number (fuel-driven so that it
reduces definitionally; `natDigits` supplies sufficient fuel). -/
def natDigitsGo : Nat → Nat → List Char → List Char
  | 0, _, acc => acc
  | fuel + 1, n, acc =>
    if n < 10 then Char.ofNat (48 + n) :: acc
    else natDigitsGo fuel (n / 10) (Char.ofNat (48 + n % 10) :: acc)

def natDigits (n : Nat) : List Char := natDigitsGo (n + 1) n []

/-- Multiplicity of `p` in `n` (largest `k` with `p ^ k ∣ n`), for
`2 ≤ p` and `0 < n`; fuel-driven. -/
def multGo : Nat → Nat → Nat → Nat
  | 0, _, _ => 0
  | fuel + 1, p, n =>
    if 2 ≤ p then
      if n ≠ 0 then
        if n % p = 0 then 1 + multGo fuel p (n / p) else 0
      else 0
    else 0

def padMult (p n : Nat) : Nat := multGo n p n

/-- A rational has a terminating decimal expansion iff its reduced
denominator is of the form `2 ^ a * 5 ^ b`.  Every finite JS double does. -/
def termQ (q : ℚ) : Bool := 2 ^ padMult 2 q.den * 5 ^ padMult 5 q.den == q.den

/-- The decimal-notation rendering of a finite value (ECMAScript
`Number::toString`, radix 10, clauses for `-6 < n <= 21`): the exact
decimal expansion with a minimal significand (no trailing fraction
zeros, since `k` is the least power with `d | 10 ^ k` and `m` keeps no
factor 10).  The shortest-round-trip formatting of doubles is abstracted
to the exact expansion.  Values produced by `jsNumberList` always
terminate (see `jsNumberList_num_termQ`); for a non-terminating
rational, which never arises from the embedded program, the fallback
truncates to an integer. -/
def ratToString (q : ℚ) : List Char :=
  if q = 0 then ['0']
  else
    let n := q.num.natAbs
    let d := q.den
    let a := padMult 2 d
    let b := padMult 5 d
    let k := max a b
    if 2 ^ a * 5 ^ b == d then
      let m := n * (10 ^ k / d)
      let digs := natDigits m
      let digs2 := List.replicate (k + 1 - digs.length) '0' ++ digs
      let ip := digs2.take (digs2.length - k)
      let fp := digs2.drop (digs2.length - k)
      (if q < 0 then ['-'] else []) ++ ip ++ (if k = 0 then [] else '.' :: fp)
  else (if q < 0 then ['-'] else []) ++ natDigits (n / d)

def absQ (q : ℚ) : ℚ := if q < 0 then -q else q

/-- Whether ECMAScript `Number::toString` renders the value in decimal
notation: the decimal-point position `n` (the integer with
`10 ^ (n - 1) <= |x| < 10 ^ n`) satisfies `-6 < n <= 21`, i.e. the value
is zero or `10 ^ -6 <= |x| < 10 ^ 21`.  Outside this range the rendering
uses exponent notation (`"1e-7"`, `"1e+21"`). -/
def decimalRange (q : ℚ) : Bool :=
  q = 0 || (!(absQ q < Rat.divInt 1 1000000) &&
    absQ q < Rat.divInt 1000000000000000000000 1)

def stripZeros (l : List Char) : List Char :=
  (l.reverse.dropWhile (fun c => c = '0')).reverse

/-- The exponent-notation rendering of a finite value (ECMAScript
`Number::toString`, radix 10, clauses for `n <= -6` or `n > 21`):
significand digits with no trailing zeros, a decimal point after the
first digit when there is more than one, then `e`, the sign of `n - 1`
(`-` when negative, `+` otherwise) and the digits of `|n - 1|`.  With
the exact expansion `m / 10 ^ k` (`m` with no factor 10 against `10^k`),
`n - 1` is the digit count of `m` minus `k` minus 1.  The non-terminating
fallback matches `ratToString`'s and never arises from the program. -/
def expNotation (q : ℚ) : List Char :=
  if q = 0 then ['0']
  else
    let n := q.num.natAbs
    let d := q.den
    let a := padMult 2 d
    let b := padMult 5 d
    let k := max a b
    if 2 ^ a * 5 ^ b == d then
      let m := n * (10 ^ k / d)
      let digs := natDigits m
      let s := stripZeros digs
      let e : ℤ := (digs.length : ℤ) - (k : ℤ) - 1
      let core := match s with
        | [] => []
        | [c0] => [c0]
        | c0 :: rest => c0 :: '.' :: rest
      (if q < 0 then ['-'] else []) ++ core ++ 'e' ::
        (if e < 0 then ['-'] else ['+']) ++ natDigits e.natAbs
    else (if q < 0 then ['-'] else []) ++ natDigits (n / d)

/-- ECMAScript `Number::toString` for a finite value: decimal notation
inside the `decimalRange`, exponent notation outside it. -/
def jsToString (q : ℚ) : List Char :=
  if decimalRange q then ratToString q else expNotation q

/-- String conversion of a JS number (as in a template literal). -/
def jsNumToString : JSNum → List Char
  | .nan => "NaN".data
  | .posInf => "Infinity".data
  | .negInf => "-Infinity".data
  | .num q => jsToString q

example : jsToString (Rat.divInt 1 10000000) = "1e-7".data := by decide
example : jsToString (Rat.divInt (-1) 10000000) = "-1e-7".data := by decide
example : jsToString (Rat.divInt 1 1000000) = "0.000001".data := by decide
example : jsToString (Rat.divInt 1000000000000000000000 1) = "1e+21".data := by decide
example : jsToString (Rat.divInt 3000000000000000000000 2) = "1.5e+21".data := by decide
example : jsToString (Rat.divInt 999999999999999999999 1) =
    "999999999999999999999".data := by decide
example : jsToString (Rat.divInt 3 2) = "1.5".data := by decide

/-! ## `Number(string)`

The `ToNumber` conversion applied to a string: trim, empty means `0`,
otherwise the `StrNumericLiteral` grammar (signed decimal with optional
exponent, signed `Infinity`, unsigned `0x`/`0o`/`0b` radix literals). -/

/-- The mathematical value `d / 10 ^ k * 10 ^ e` of a decimal literal with
integer-and-fraction digit value `d`, `k` fraction digits and exponent `e`,
expressed through `Rat.divInt` (the core rational arithmetic operations are
avoided throughout so that every definition reduces definitionally). -/
def decValue (d : Nat) (k : Nat) (e : ℤ) : ℚ :=
  Rat.divInt (d * 10 ^ e.toNat) (10 ^ (k + (-e).toNat))

def expDigits (r : List Char) : Option ℤ :=
  if !r.isEmpty && r.all (fun c => isDig c) then some (digitsValNat r) else none

def expTail (l : List Char) : Option ℤ :=
  if l.head? = some '+' then expDigits l.tail
  else if l.head? = some '-' then (expDigits l.tail).map (fun e => -e)
  else expDigits l

def expPart (l : List Char) : Option ℤ :=
  if l.isEmpty then some 0
  else if l.head? = some 'e' || l.head? = some 'E' then expTail l.tail
  else none

/-- `StrDecimalLiteral` without the sign: digits, optional fraction,
optional exponent; the whole string must be consumed. -/
def decimalLit (r : List Char) : Option ℚ :=
  let ds := r.takeWhile (fun c => isDig c)
  let r1 := r.drop ds.length
  if r1.head? = some '.' then
    let r2 := r1.tail
    let fs := r2.takeWhile (fun c => isDig c)
    let r3 := r2.drop fs.length
    if ds.isEmpty && fs.isEmpty then none
    else match expPart r3 with
      | none => none
      | some e => some (decValue (digitsValNat (ds ++ fs)) fs.length e)
  else
    if ds.isEmpty then none
    else match expPart r1 with
      | none => none
      | some e => some (decValue (digitsValNat ds) 0 e)

/-- Signed part of the conversion: `Infinity` or a decimal literal. -/
def signedTail (r : List Char) (neg : Bool) : JSNum :=
  if r = "Infinity".data then (if neg then .negInf else .posInf)
  else match decimalLit r with
    | none => .nan
    | some q => .num (if neg then -q else q)

def isRadixDigit (b : Nat) (c : Char) : Bool :=
  (48 ≤ c.toNat && c.toNat ≤ 57 && c.toNat - 48 < b) ||
  (65 ≤ c.toNat && c.toNat - 65 + 10 < b && c.toNat ≤ 90) ||
  (97 ≤ c.toNat && c.toNat - 97 + 10 < b && c.toNat ≤ 122)

def radixDigitVal (c : Char) : Nat :=
  if c.toNat ≤ 57 then c.toNat - 48
  else if c.toNat ≤ 90 then c.toNat - 65 + 10
  else c.toNat - 97 + 10

def radixValNat (b : Nat) (l : List Char) : Nat :=
  l.foldl (fun a c => a * b + radixDigitVal c) 0

/-- Unsigned radix literal (after `0x` / `0o` / `0b`). -/
def radixTail (b : Nat) (r : List Char) : JSNum :=
  if !r.isEmpty && r.all (fun c => isRadixDigit b c) then .num (radixValNat b r)
  else .nan

/-- JS `Number(s)` on a string. -/
def jsNumberList (s : List Char) : JSNum :=
  let t := jsTrimList s
  if t.isEmpty then .num 0
  else if t.head? = some '+' then signedTail t.tail false
  else if t.head? = some '-' then signedTail t.tail true
  else if t.take 2 = ['0', 'x'] || t.take 2 = ['0', 'X'] then radixTail 16 (t.drop 2)
  else if t.take 2 = ['0', 'o'] || t.take 2 = ['0', 'O'] then radixTail 8 (t.drop 2)
  else if t.take 2 = ['0', 'b'] || t.take 2 = ['0', 'B'] then radixTail 2 (t.drop 2)
  else signedTail t false

example : jsNumberList "12.5".data = .num (Rat.divInt 25 2) := by decide
example : jsNumberList "".data = .num 0 := by decide
example : jsNumberList "  -3 ".data = .num (-3) := by decide
example : jsNumberList "1.2.3".data = .nan := by decide
example : jsNumberList ".".data = .nan := by decide
example : jsNumberList "0x1A".data = .num 26 := by decide
example : jsNumberList "Infinity".data = .posInf := by decide
example : ratToString (Rat.divInt 25 2) = "12.5".data := by decide
example : ratToString (-3 : ℚ) = "-3".data := by decide
example : ratToString (0 : ℚ) = "0".data := by decide
example : ratToString (Rat.divInt 1 20) = "0.05".data := by decide

/-! ## `split(/[\s,]+/)`

`String.prototype.split` with the regex `[\s,]+`: every maximal run of
separator characters is one separator; an empty string yields `[""]`,
leading/trailing separator runs yield empty fragments. -/

inductive SplitState where
  | building : List Char → SplitState
  | skipping : SplitState

def splitGo : List Char → SplitState → List (List Char)
  | [], .building acc => [acc.reverse]
  | [], .skipping => [[]]
  | c :: rest, .building acc =>
    if isSepChar c then acc.reverse :: splitGo rest .skipping
    else splitGo rest (.building (c :: acc))
  | c :: rest, .skipping =>
    if isSepChar c then splitGo rest .skipping
    else splitGo rest (.building [c])

def splitSep (s : List Char) : List (List Char) := splitGo s (.building [])

example : splitSep "10 20".data = ["10".data, "20".data] := by decide
example : splitSep "".data = ["".data] := by decide
example : splitSep "a,,b".data = ["a".data, "b".data] := by decide
example : splitSep ",a".data = ["".data, "a".data] := by decide
example : splitSep "a,".data = ["a".data, "".data] := by decide

/-! ## The tokenizer of `parsePath`

`parsePath` drives the global regex `([MmLlCcAaZz])\s*([^A-Za-z]+)?` with
`exec` over the input.  Each match is a command letter together with the
maximal run of non-letter characters that follows it (possibly empty);
characters outside any match are skipped.  A `RawMatch` stores the full
run; capture group 2 of the regex is that run minus the whitespace eaten
by the greedy `\s*`, or absent when nothing remains (`rawGroup2`). -/

structure RawMatch where
  cmd : Char
  run : List Char
deriving DecidableEq, Repr

/-- Capture group 2 of a match: the run after the greedy `\s*`, absent
when that is empty. -/
def rawGroup2 (m : RawMatch) : Option (List Char) :=
  let a := m.run.dropWhile (fun c => isJsWS c)
  if a.isEmpty then none else some a

/-- The `regex.exec` loop: scan for a command letter, then collect the
maximal following run of `[^A-Za-z]` characters.  The second argument is
`none` while searching for a command letter and `some (cmd, acc)` while
collecting the (reversed) run of the current match. -/
def scanGo : List Char → Option (Char × List Char) → List RawMatch
  | [], none => []
  | [], some (cmd, acc) => [⟨cmd, acc.reverse⟩]
  | c :: rest, none =>
    if isCmdChar c then scanGo rest (some (c, [])) else scanGo rest none
  | c :: rest, some (cmd, acc) =>
    if isLetter c then
      ⟨cmd, acc.reverse⟩ :: (if isCmdChar c then scanGo rest (some (c, [])) else scanGo rest none)
    else scanGo rest (some (cmd, c :: acc))

def scanMatches (s : List Char) : List RawMatch := scanGo s none

example : scanMatches "M 10,10 L 20,20 Z".data =
    [⟨'M', " 10,10 ".data⟩, ⟨'L', " 20,20 ".data⟩, ⟨'Z', [].reverse⟩] := by decide
example : scanMatches "M 1e+21,5".data = [⟨'M', " 1".data⟩] := by decide

/-! ## Path command objects -/

/-- A JS object property slot for the numeric fields of a command object:
never assigned, assigned `undefined`, or assigned a number. -/
inductive JVal where
  | absent : JVal
  | undef : JVal
  | defined : JSNum → JVal
deriving DecidableEq, Repr

/-- A command object built by `parsePath`: the `command` letter plus the
numeric fields, each possibly unassigned.  Field names follow the source. -/
structure PathCmd where
  command : Char
  x : JVal := .absent
  y : JVal := .absent
  x1 : JVal := .absent
  y1 : JVal := .absent
  x2 : JVal := .absent
  y2 : JVal := .absent
  rx : JVal := .absent
  ry : JVal := .absent
  xAxisRotation : JVal := .absent
  largeArcFlag : JVal := .absent
  sweepFlag : JVal := .absent
deriving DecidableEq, Repr

instance : Inhabited PathCmd := ⟨{ command := ' ' }⟩

/-- JS `coords[i]`: out-of-range indexing yields `undefined`. -/
def coordAt (coords : List JSNum) (i : Nat) : JVal :=
  match coords.get? i with
  | none => .undef
  | some n => .defined n

/-- The body of the `while` loop of `parsePath`, for one regex match:
`Z`/`z` short-circuits; otherwise `(match[2] || '').trim()` is split on
`[\s,]+`, mapped through `Number`, and assigned positionally into the
fields dictated by the command letter. -/
def parseMatch (m : RawMatch) : PathCmd :=
  let command := m.cmd
  if command = 'Z' || command = 'z' then { command }
  else
    let coords := (splitSep (jsTrimList ((rawGroup2 m).getD []))).map jsNumberList
    if command = 'M' || command = 'm' || command = 'L' || command = 'l' then
      { command, x := coordAt coords 0, y := coordAt coords 1 }
    else if command = 'C' || command = 'c' then
      { command, x1 := coordAt coords 0, y1 := coordAt coords 1,
        x2 := coordAt coords 2, y2 := coordAt coords 3,
        x := coordAt coords 4, y := coordAt coords 5 }
    else if command = 'A' || command = 'a' then
      { command, rx := coordAt coords 0, ry := coordAt coords 1,
        xAxisRotation := coordAt coords 2, largeArcFlag := coordAt coords 3,
        sweepFlag := coordAt coords 4, x := coordAt coords 5, y := coordAt coords 6 }
    else { command }

/-- `PathEditor.parsePath(d)`. -/
def parsePath (d : String) : List PathCmd := (scanMatches d.data).map parseMatch

example : parsePath "M 10,10 L 20,20 Z" =
    [{ command := 'M', x := .defined (.num 10), y := .defined (.num 10) },
     { command := 'L', x := .defined (.num 20), y := .defined (.num 20) },
     { command := 'Z' }] := by decide

example : parsePath "C 1,1 2,2 3,3" =
    [{ command := 'C', x1 := .defined (.num 1), y1 := .defined (.num 1),
       x2 := .defined (.num 2), y2 := .defined (.num 2),
       x := .defined (.num 3), y := .defined (.num 3) }] := by decide

example : parsePath "M 5" = [{ command := 'M', x := .defined (.num 5), y := .undef }] := by decide

example : parsePath "A 25,25 0 0,1 50,50" =
    [{ command := 'A', rx := .defined (.num 25), ry := .defined (.num 25),
       xAxisRotation := .defined (.num 0), largeArcFlag := .defined (.num 0),
       sweepFlag := .defined (.num 1), x := .defined (.num 50), y := .defined (.num 50) }] := by
  decide

/-! ## `PathEditor.generatePath`

`generatePath(pathData, pathId)` walks the command array appending to a
string, re-reads the `'d'` attribute of the element `pathId` from the
DOM, appends `'Z'` when that attribute is truthy and its trimmed value
ends with `'Z'`, and returns the trimmed string.  The DOM read
`document.getElementById(pathId).getAttribute('d')` is passed in as an
`Option` (`none` models a `null` attribute; a missing element, which
would throw in JS, is outside the model). -/

/-- One template-literal interpolation `${v}` of a field slot: reading an
unassigned property yields `undefined`, which stringifies to
`"undefined"`. -/
def fieldToString : JVal → List Char
  | .absent => "undefined".data
  | .undef => "undefined".data
  | .defined n => jsNumToString n

/-- One iteration of the `forEach` in `generatePath`: the command letter,
a space, and the branch-dependent field text. -/
def emitCommand (c : PathCmd) : List Char :=
  [c.command, ' '] ++
  (if c.command = 'M' || c.command = 'm' || c.command = 'L' || c.command = 'l' then
    fieldToString c.x ++ ',' :: fieldToString c.y ++ [' ']
  else if c.command = 'C' || c.command = 'c' then
    fieldToString c.x1 ++ ',' :: fieldToString c.y1 ++ ' ' ::
    fieldToString c.x2 ++ ',' :: fieldToString c.y2 ++ ' ' ::
    fieldToString c.x ++ ',' :: fieldToString c.y ++ [' ']
  else if c.command = 'A' || c.command = 'a' then
    fieldToString c.rx ++ ',' :: fieldToString c.ry ++ ' ' ::
    fieldToString c.xAxisRotation ++ ' ' ::
    fieldToString c.largeArcFlag ++ ',' :: fieldToString c.sweepFlag ++ ' ' ::
    fieldToString c.x ++ ',' :: fieldToString c.y ++ [' ']
  else [])

/-- JS `s.endsWith('Z')`. -/
def jsEndsWithZ (l : List Char) : Bool := l.getLast? = some 'Z'

/-- The condition `originalPathD && originalPathD.trim().endsWith('Z')`
(`null` and the empty string are falsy). -/
def zAppendCond : Option (List Char) → Bool
  | none => false
  | some s => !s.isEmpty && jsEndsWithZ (jsTrimList s)

def generatePathList (pathData : List PathCmd) (originalPathD : Option (List Char)) :
    List Char :=
  let dString := pathData.foldl (fun s c => s ++ emitCommand c) []
  let dString := if zAppendCond originalPathD then dString ++ ['Z'] else dString
  jsTrimList dString

/-- `PathEditor.generatePath(pathData, pathId)`, with the DOM attribute
read inside it made explicit. -/
def generatePath (pathData : List PathCmd) (originalPathD : Option String) : String :=
  ⟨generatePathList pathData (originalPathD.map String.data)⟩

example : generatePath (parsePath "M 10,10 L 20,20") (some "M 10,10 L 20,20") =
    "M 10,10 L 20,20" := by decide
example : generatePath (parsePath "M 1,2 Z") (some "M 1,2 Z") = "M 1,2 Z Z" := by decide
example : generatePath (parsePath "M 0.0000001,1") (some "M 0.0000001,1") =
    "M 1e-7,1" := by decide

/-! ## `PathEditor.updatePath` -/

/-- The argument object handed to `updatePath` by the drag handler.  Its
`x`/`y` come from an SVG point, i.e. finite doubles, modelled as exact
rationals. -/
structure UpdateData where
  x : ℚ
  y : ℚ
  index : Nat
  pointType : String

/-- The mutation `updatePath` performs on the selected command object. -/
def mutateCmd (c : PathCmd) (u : UpdateData) : PathCmd :=
  if u.pointType = "C1" then
    { c with x1 := .defined (.num u.x), y1 := .defined (.num u.y) }
  else if u.pointType = "C2" then
    { c with x2 := .defined (.num u.x), y2 := .defined (.num u.y) }
  else
    { c with x := .defined (.num u.x), y := .defined (.num u.y) }

/-- `PathEditor.updatePath(updateData)` as a function on the `'d'`
attribute of `this.pathElem`: re-parse, mutate the command at
`updateData.index`, re-serialize (reading the still-unchanged attribute
for the trailing-`Z` check), and return the new attribute value.  In JS an
out-of-range index throws on the field assignment; the model is total and
the theorems restrict to valid indices. -/
def updatePath (attrD : String) (u : UpdateData) : String :=
  let parsedPathData := parsePath attrD
  let mutated := parsedPathData.set u.index (mutateCmd (parsedPathData.getD u.index default) u)
  generatePath mutated (some attrD)

example : updatePath "M 10,10 L 20,20" { x := 5, y := 5, index := 0, pointType := "endpoint" } =
    "M 5,5 L 20,20" := by decide

/-! ## `PresetManagerFactory`

The factory closes over `presets` (a plain object used as a map) and
`presetCounter`.  The store is modelled as an insertion-ordered
association list of own properties. -/

/-- An opaque caller-defined data blob: a JS value.  Objects carry an
identity so that reference equality is expressible. -/
inductive JData where
  | vnull : JData
  | vundef : JData
  | vbool : Bool → JData
  | vnum : JSNum → JData
  | vstr : String → JData
  | vobj : Nat → JData
deriving DecidableEq, Repr

/-- JS truthiness. -/
def truthy : JData → Bool
  | .vnull => false
  | .vundef => false
  | .vbool b => b
  | .vnum .nan => false
  | .vnum .posInf => true
  | .vnum .negInf => true
  | .vnum (.num q) => q ≠ 0
  | .vstr s => !s.isEmpty
  | .vobj _ => true

/-- `savePreset(name, data)`: `presets[name] = data`.  Assigning an
existing key overwrites in place; a new key is appended. -/
def savePresetL (presets : List (String × JData)) (name : String) (data : JData) :
    List (String × JData) :=
  if presets.any (fun p => p.1 = name) then
    presets.map (fun p => if p.1 = name then (name, data) else p)
  else presets ++ [(name, data)]

/-- `getPreset(name)`: `presets[name] || null`. -/
def getPresetL (presets : List (String × JData)) (name : String) : JData :=
  match (presets.find? (fun p => p.1 = name)).map (fun p => p.2) with
  | none => .vnull
  | some v => if truthy v then v else .vnull

/-- An ECMAScript array-index property key: a canonical base-10 numeral
whose value is below `2 ^ 32 - 1`. -/
def isArrayIndexKey (s : String) : Bool :=
  !s.data.isEmpty && s.data.all (fun c => isDig c) &&
  (s = "0" || s.data.head? ≠ some '0') && digitsValNat s.data < 4294967295

def insertByVal (x : String) : List String → List String
  | [] => [x]
  | y :: ys =>
    if digitsValNat x.data ≤ digitsValNat y.data then x :: y :: ys
    else y :: insertByVal x ys

/-- Ascending numeric sort of array-index keys (insertion sort). -/
def sortByVal (l : List String) : List String := l.foldr insertByVal []

/-- `Object.keys(presets)`: array-index keys first in ascending numeric
order, then the remaining string keys in insertion order. -/
def objectKeysOrder (ks : List String) : List String :=
  sortByVal (ks.filter (fun k => isArrayIndexKey k)) ++
  ks.filter (fun k => !isArrayIndexKey k)

/-- `getPresetNames()`: `Object.keys(presets)`. -/
def getPresetNamesL (presets : List (String × JData)) : List String :=
  objectKeysOrder (presets.map (fun p => p.1))

/-- A sequence of `savePreset` calls against one factory instance,
starting from the empty store. -/
def applySaves (saves : List (String × JData)) : List (String × JData) :=
  saves.foldl (fun st p => savePresetL st p.1 p.2) []

/-- Spec-side description of "all saved names in insertion order with no
duplicates": the first occurrence of each name, in order. -/
def firstOcc : List String → List String
  | [] => []
  | k :: ks => k :: (firstOcc ks).filter (fun x => !(x = k))

/-- JS number-to-string for the counter appended to the preset-name prefix. -/
def natToString (n : Nat) : String := ⟨natDigits n⟩

/-- The closure state of one `PresetManagerFactory()` instance. -/
structure ManagerState where
  presets : List (String × JData)
  presetCounter : Nat
deriving Repr

/-- The configuration slice of `setup(config)` that affects the manager
state.  `saveButtonExists` is whether `document.querySelector
(selectors.saveButton)` finds an element; the apply/animate wiring only
registers listeners and cannot change the state during `setup`. -/
structure SetupConfig where
  presetNamePrefix : String
  getInitialData : Unit → JData
  saveButtonExists : Bool

/-- The click handler attached to the save button: increment the counter,
build `presetNamePrefix + presetCounter`, snapshot `getInitialData()`.
(`updatePresetSelect` only mutates the DOM.) -/
def saveClickHandler (pfx : String) (getInitialData : Unit → JData)
    (st : ManagerState) : ManagerState :=
  let currentData := getInitialData ()
  let c := st.presetCounter + 1
  let presetName := pfx ++ natToString c
  { presets := savePresetL st.presets presetName currentData, presetCounter := c }

/-- `setup(config)`'s effect on the manager state: when the save button
exists its handler is registered and then invoked once synchronously by
the final `saveButton.click()`; otherwise nothing changes. -/
def setup (cfg : SetupConfig) (st : ManagerState) : ManagerState :=
  if cfg.saveButtonExists then
    saveClickHandler cfg.presetNamePrefix cfg.getInitialData st
  else st

example :
    (setup { presetNamePrefix := "preset", getInitialData := fun _ => .vobj 7,
             saveButtonExists := true } { presets := [], presetCounter := 0 }).presets =
    [("preset1", .vobj 7)] := by decide

/-! ## Derived notions used by the theorems -/

/-- The fields a command letter's schema assigns, in the positional order
of both `parsePath` (assignment order) and `generatePath` (emission
order). -/
def schemaFields (c : PathCmd) : List JVal :=
  if c.command = 'M' || c.command = 'm' || c.command = 'L' || c.command = 'l' then
    [c.x, c.y]
  else if c.command = 'C' || c.command = 'c' then
    [c.x1, c.y1, c.x2, c.y2, c.x, c.y]
  else if c.command = 'A' || c.command = 'a' then
    [c.rx, c.ry, c.xAxisRotation, c.largeArcFlag, c.sweepFlag, c.x, c.y]
  else []

/-- A field slot holding a finite number with terminating decimal
expansion (as every finite double has) whose `toString` uses decimal
notation (zero or `10 ^ -6 <= |q| < 10 ^ 21`; outside this range the
emitted exponent notation's `e` terminates a scanner match, and the
round trip fails). -/
def wfVal : JVal → Bool
  | .defined (.num q) => termQ q && decimalRange q
  | _ => false

/-- A well-formed command object: a supported command letter all of whose
schema fields hold finite numbers.  `parsePath` output on a fully-formed
argument list satisfies this. -/
def wfCmd (c : PathCmd) : Bool := isCmdChar c.command && (schemaFields c).all wfVal

/-- The projection of a command object onto its letter and schema fields
(all other slots unassigned).  Serializing and re-parsing a well-formed
command recovers exactly this projection. -/
def canonical (c : PathCmd) : PathCmd :=
  if c.command = 'M' || c.command = 'm' || c.command = 'L' || c.command = 'l' then
    { command := c.command, x := c.x, y := c.y }
  else if c.command = 'C' || c.command = 'c' then
    { command := c.command, x1 := c.x1, y1 := c.y1, x2 := c.x2, y2 := c.y2,
      x := c.x, y := c.y }
  else if c.command = 'A' || c.command = 'a' then
    { command := c.command, rx := c.rx, ry := c.ry,
      xAxisRotation := c.xAxisRotation, largeArcFlag := c.largeArcFlag,
      sweepFlag := c.sweepFlag, x := c.x, y := c.y }
  else { command := c.command }

/-- Whether a property slot was ever assigned (JS `'f' in obj`). -/
def JVal.isAssigned : JVal → Bool
  | .absent => false
  | _ => true

/-- The presence pattern of the eleven numeric fields, in the fixed order
x, y, x1, y1, x2, y2, rx, ry, xAxisRotation, largeArcFlag, sweepFlag. -/
def presentMask (c : PathCmd) : List Bool :=
  [c.x.isAssigned, c.y.isAssigned, c.x1.isAssigned, c.y1.isAssigned,
   c.x2.isAssigned, c.y2.isAssigned, c.rx.isAssigned, c.ry.isAssigned,
   c.xAxisRotation.isAssigned, c.largeArcFlag.isAssigned, c.sweepFlag.isAssigned]

/-- The presence pattern each command letter dictates. -/
def maskFor (cmd : Char) : List Bool :=
  if cmd = 'M' || cmd = 'm' || cmd = 'L' || cmd = 'l' then
    [true, true, false, false, false, false, false, false, false, false, false]
  else if cmd = 'C' || cmd = 'c' then
    [true, true, true, true, true, true, false, false, false, false, false]
  else if cmd = 'A' || cmd = 'a' then
    [true, true, false, false, false, false, true, true, true, true, true]
  else
    [false, false, false, false, false, false, false, false, false, false, false]

/-- The trailing-`Z` status of a path string: whether its trimmed value
ends with the (uppercase) letter `Z`, as `generatePath` tests it. -/
def trailingZStatus (d : String) : Bool := jsEndsWithZ (jsTrimList d.data)

/-- The trailing-`Z` status of the `'d'` attribute read from the DOM
(`none` is a `null` attribute). -/
def domZStatus : Option String → Bool
  | none => false
  | some s => trailingZStatus s

/-- The argument tokens of one regex match, as `parsePath` computes them:
`(match[2] || '').trim().split(/[\s,]+/)`. -/
def tokensOf (m : RawMatch) : List (List Char) :=
  splitSep (jsTrimList ((rawGroup2 m).getD []))

/-! ## Character-class facts -/

theorem char_eq_iff_toNat {c d : Char} : c = d ↔ c.toNat = d.toNat := by
  constructor
  · intro h; rw [h]
  · intro h; exact Char.ext (UInt32.ext h)

theorem isDig_toNat {c : Char} (h : isDig c = true) : 48 ≤ c.toNat ∧ c.toNat ≤ 57 := by
  simpa [isDig] using h

theorem not_isLetter_of_isDig {c : Char} (h : isDig c = true) : isLetter c = false := by
  have h2 := isDig_toNat h
  simp only [isLetter, Bool.or_eq_false_iff, Bool.and_eq_false_iff,
    decide_eq_false_iff_not, not_le]
  omega

theorem not_isJsWS_of_isDig {c : Char} (h : isDig c = true) : isJsWS c = false := by
  have h2 := isDig_toNat h
  simp only [isJsWS, Bool.or_eq_false_iff, Bool.and_eq_false_iff,
    decide_eq_false_iff_not, not_le]
  omega

theorem not_isSepChar_of_isDig {c : Char} (h : isDig c = true) : isSepChar c = false := by
  simp only [isSepChar, Bool.or_eq_false_iff, not_isJsWS_of_isDig h,
    decide_eq_false_iff_not, true_and]
  intro hc
  subst hc
  exact absurd h (by decide)

theorem isLetter_of_isCmdChar {c : Char} (h : isCmdChar c = true) : isLetter c = true := by
  simp only [isCmdChar, Bool.or_eq_true, decide_eq_true_eq] at h
  rcases h with ((((((((h | h) | h) | h) | h) | h) | h) | h) | h) | h <;> subst h <;> decide

theorem not_isJsWS_of_isLetter {c : Char} (h : isLetter c = true) : isJsWS c = false := by
  simp only [isLetter, Bool.or_eq_true, Bool.and_eq_true, decide_eq_true_eq] at h
  simp only [isJsWS, Bool.or_eq_false_iff, Bool.and_eq_false_iff,
    decide_eq_false_iff_not]
  omega

/-! ## Trim facts -/

theorem dropWhile_append_of_all {p : Char → Bool} :
    ∀ {x : List Char} (y : List Char), (∀ c ∈ x, p c = true) →
      (x ++ y).dropWhile p = y.dropWhile p
  | [], y, _ => rfl
  | c :: x, y, h => by
    simp only [List.cons_append, List.dropWhile_cons, h c (by simp), if_true]
    exact dropWhile_append_of_all y (fun d hd => h d (by simp [hd]))

theorem dropWhile_append_of_ne_nil {p : Char → Bool} :
    ∀ {x : List Char} (y : List Char), x.dropWhile p ≠ [] →
      (x ++ y).dropWhile p = x.dropWhile p ++ y
  | [], y, h => absurd rfl h
  | c :: x, y, h => by
    by_cases hc : p c = true
    · simp only [List.dropWhile_cons, hc, if_true] at h
      have hstep : ((c :: x) ++ y).dropWhile p = (x ++ y).dropWhile p := by
        simp [List.dropWhile_cons, hc]
      rw [hstep, dropWhile_append_of_ne_nil y h]
      simp [List.dropWhile_cons, hc]
    · have hc2 : p c = false := by simpa using hc
      simp [List.dropWhile_cons, hc2]

theorem jsTrimRight_append_ws {l w : List Char} (h : ∀ c ∈ w, isJsWS c = true) :
    jsTrimRight (l ++ w) = jsTrimRight l := by
  unfold jsTrimRight
  rw [List.reverse_append, dropWhile_append_of_all _ (by simpa using h)]

theorem jsTrimRight_eq_self {l : List Char}
    (h : ∀ c, l.getLast? = some c → isJsWS c = false) : jsTrimRight l = l := by
  unfold jsTrimRight
  rcases hl : l.reverse with _ | ⟨c, t⟩
  · simpa using congrArg List.reverse hl
  · have hc : l.getLast? = some c := by
      rw [← List.head?_reverse, hl]; rfl
    rw [List.dropWhile_cons, h c hc]
    simp only [Bool.false_eq_true, if_false]
    exact (by simpa using congrArg List.reverse hl.symm : (c :: t).reverse = l)

theorem jsTrimLeft_eq_self {l : List Char}
    (h : ∀ c, l.head? = some c → isJsWS c = false) : jsTrimLeft l = l := by
  unfold jsTrimLeft
  rcases l with _ | ⟨c, t⟩
  · rfl
  · rw [List.dropWhile_cons, h c rfl]
    simp

/-- Trimming a string with non-whitespace ends is the identity. -/
theorem jsTrimList_eq_self {l : List Char}
    (h1 : ∀ c, l.head? = some c → isJsWS c = false)
    (h2 : ∀ c, l.getLast? = some c → isJsWS c = false) : jsTrimList l = l := by
  unfold jsTrimList
  rw [jsTrimLeft_eq_self h1, jsTrimRight_eq_self h2]

theorem jsTrimRight_append_left {l w : List Char} (h : jsTrimRight w ≠ []) :
    jsTrimRight (l ++ w) = l ++ jsTrimRight w := by
  unfold jsTrimRight at h ⊢
  rw [List.reverse_append, dropWhile_append_of_ne_nil _ (by
    intro hw
    exact h (by simp [hw]))]
  simp

/-! ## Split facts -/

theorem splitGo_append_nonsep :
    ∀ {a : List Char} (s : List Char) (acc : List Char),
      (∀ c ∈ a, isSepChar c = false) →
      splitGo (a ++ s) (.building acc) = splitGo s (.building (a.reverse ++ acc))
  | [], s, acc, _ => by simp
  | c :: a, s, acc, h => by
    have hstep : splitGo ((c :: a) ++ s) (.building acc) =
        splitGo (a ++ s) (.building (c :: acc)) := by
      simp [splitGo, h c (by simp)]
    rw [hstep, splitGo_append_nonsep s (c :: acc) (fun d hd => h d (by simp [hd]))]
    simp

/-- A nonempty all-non-separator string splits to itself alone (also the
empty string: `''.split(/[\s,]+/)` is `['']`). -/
theorem splitSep_all_nonsep {t : List Char} (h : ∀ c ∈ t, isSepChar c = false) :
    splitSep t = [t] := by
  unfold splitSep
  rw [show t = t ++ [] by simp, splitGo_append_nonsep [] [] h]
  simp [splitGo]

/-- Splitting off one leading token followed by one separator, when the
remainder is empty or starts with a non-separator. -/
theorem splitSep_tok_cons {t : List Char} {s0 : Char} {rest : List Char}
    (ht : ∀ c ∈ t, isSepChar c = false) (hs : isSepChar s0 = true)
    (hr : rest = [] ∨ ∃ c r, rest = c :: r ∧ isSepChar c = false) :
    splitSep (t ++ s0 :: rest) = t :: splitSep rest := by
  unfold splitSep
  rw [splitGo_append_nonsep (s0 :: rest) [] ht]
  simp only [splitGo, hs, if_true, List.append_nil, List.reverse_reverse]
  congr 1
  rcases hr with rfl | ⟨c, r, rfl, hc⟩
  · rfl
  · simp [splitGo, hc]

/-! ## Decimal digit facts -/

theorem natDigitsGo_eq (n : Nat) : ∀ (fuel : Nat) (acc : List Char), n < fuel →
    natDigitsGo fuel n acc = natDigits n ++ acc := by
  induction n using Nat.strong_induction_on with
  | _ n ih =>
    intro fuel acc hfuel
    match fuel, hfuel with
    | fuel + 1, _ =>
      by_cases h10 : n < 10
      · simp [natDigitsGo, natDigits, h10]
      · have hdiv : n / 10 < n := Nat.div_lt_self (by omega) (by omega)
        have hstep : natDigitsGo (fuel + 1) n acc =
            natDigitsGo fuel (n / 10) (Char.ofNat (48 + n % 10) :: acc) := by
          simp [natDigitsGo, h10]
        have hstep2 : natDigits n = natDigits (n / 10) ++ [Char.ofNat (48 + n % 10)] := by
          have : natDigits n = natDigitsGo n (n / 10) [Char.ofNat (48 + n % 10)] := by
            simp [natDigits, natDigitsGo, h10]
          rw [this, ih (n / 10) hdiv n _ (by omega)]
        rw [hstep, ih (n / 10) hdiv fuel _ (by omega), hstep2, List.append_assoc]
        rfl

/-- The recursion equation of `natDigits` for two-digit-or-more numbers. -/
theorem natDigits_eq_append {n : Nat} (h10 : 10 ≤ n) :
    natDigits n = natDigits (n / 10) ++ [Char.ofNat (48 + n % 10)] := by
  have hdiv : n / 10 < n := Nat.div_lt_self (by omega) (by omega)
  have : natDigits n = natDigitsGo n (n / 10) [Char.ofNat (48 + n % 10)] := by
    simp [natDigits, natDigitsGo, show ¬n < 10 by omega]
  rw [this, natDigitsGo_eq (n / 10) n _ (by omega)]

theorem natDigits_lt_ten {n : Nat} (h10 : n < 10) :
    natDigits n = [Char.ofNat (48 + n)] := by
  simp [natDigits, natDigitsGo, h10]

theorem digitsValNat_step (l : List Char) (init : Nat) :
    l.foldl (fun a c => a * 10 + (c.toNat - 48)) init =
      init * 10 ^ l.length + digitsValNat l := by
  induction l generalizing init with
  | nil => simp [digitsValNat]
  | cons c t ih =>
    simp only [List.foldl_cons, digitsValNat, List.length_cons]
    rw [ih (init * 10 + (c.toNat - 48)), ih (0 * 10 + (c.toNat - 48))]
    ring

theorem digitsValNat_append (a b : List Char) :
    digitsValNat (a ++ b) = digitsValNat a * 10 ^ b.length + digitsValNat b := by
  unfold digitsValNat
  rw [List.foldl_append, digitsValNat_step]
  rfl

theorem digitsValNat_replicate_zero (z : Nat) (l : List Char) :
    digitsValNat (List.replicate z '0' ++ l) = digitsValNat l := by
  induction z with
  | zero => simp
  | succ z ih =>
    rw [List.replicate_succ, List.cons_append]
    show digitsValNat ('0' :: (List.replicate z '0' ++ l)) = digitsValNat l
    unfold digitsValNat at ih ⊢
    simp only [List.foldl_cons]
    convert ih using 2

theorem digit_char_val {r : Nat} (hr : r < 10) :
    digitsValNat [Char.ofNat (48 + r)] = r := by
  interval_cases r <;> decide

theorem digit_char_isDig {r : Nat} (hr : r < 10) : isDig (Char.ofNat (48 + r)) = true := by
  interval_cases r <;> decide

theorem digitsValNat_natDigits (n : Nat) : digitsValNat (natDigits n) = n := by
  induction n using Nat.strong_induction_on with
  | _ n ih =>
    by_cases h10 : n < 10
    · rw [natDigits_lt_ten h10, digit_char_val h10]
    · have hdiv : n / 10 < n := Nat.div_lt_self (by omega) (by omega)
      rw [natDigits_eq_append (by omega), digitsValNat_append, ih _ hdiv,
        digit_char_val (Nat.mod_lt n (by omega))]
      simp only [List.length_singleton, pow_one]
      omega

theorem natDigits_all_digits (n : Nat) : ∀ c ∈ natDigits n, isDig c = true := by
  induction n using Nat.strong_induction_on with
  | _ n ih =>
    by_cases h10 : n < 10
    · rw [natDigits_lt_ten h10]
      intro c hc
      rw [List.mem_singleton] at hc
      subst hc
      exact digit_char_isDig h10
    · have hdiv : n / 10 < n := Nat.div_lt_self (by omega) (by omega)
      rw [natDigits_eq_append (by omega)]
      intro c hc
      rcases List.mem_append.mp hc with hc | hc
      · exact ih _ hdiv c hc
      · rw [List.mem_singleton] at hc
        subst hc
        exact digit_char_isDig (Nat.mod_lt n (by omega))

theorem natDigits_ne_nil (n : Nat) : natDigits n ≠ [] := by
  by_cases h10 : n < 10
  · rw [natDigits_lt_ten h10]; simp
  · rw [natDigits_eq_append (by omega)]; simp

theorem natDigits_head_ne_zero {n : Nat} (hn : 1 ≤ n) :
    ∀ c, (natDigits n).head? = some c → c ≠ '0' := by
  induction n using Nat.strong_induction_on with
  | _ n ih =>
    by_cases h10 : n < 10
    · rw [natDigits_lt_ten h10]
      intro c hc
      rw [List.head?_cons, Option.some_inj] at hc
      subst hc
      interval_cases n <;> decide
    · have hdiv : n / 10 < n := Nat.div_lt_self (by omega) (by omega)
      rw [natDigits_eq_append (by omega),
        List.head?_append_of_ne_nil _ (natDigits_ne_nil (n / 10))]
      exact ih _ hdiv (by omega)

/-! ## Terminating decimals -/

theorem multGo_spec {p : Nat} (hp : 2 ≤ p) :
    ∀ (a m fuel : Nat), ¬ p ∣ m → 0 < m → p ^ a * m ≤ fuel →
      multGo fuel p (p ^ a * m) = a := by
  intro a
  induction a with
  | zero =>
    intro m fuel hm h0 hfuel
    rw [pow_zero, one_mul] at hfuel ⊢
    rcases fuel with _ | fuel
    · omega
    · have hmod : ¬ m % p = 0 := fun h => hm (Nat.dvd_of_mod_eq_zero h)
      simp [multGo, hp, hmod, Nat.ne_of_gt h0]
  | succ a ih =>
    intro m fuel hm h0 hfuel
    have hpos : 0 < p ^ (a + 1) * m := Nat.mul_pos (pow_pos (by omega) _) h0
    rcases fuel with _ | fuel
    · omega
    · have hdvd : p ∣ p ^ (a + 1) * m := Dvd.dvd.mul_right (dvd_pow_self p (by omega)) m
      have hmod : (p ^ (a + 1) * m) % p = 0 := Nat.mod_eq_zero_of_dvd hdvd
      have hdiv : p ^ (a + 1) * m / p = p ^ a * m := by
        rw [pow_succ, mul_comm (p ^ a) p, mul_assoc, Nat.mul_div_cancel_left _ (by omega)]
      have hle : p ^ a * m ≤ fuel := by
        have h1 : 1 ≤ p ^ a * m := Nat.mul_pos (pow_pos (by omega) _) h0
        have h2 : p ^ (a + 1) * m = p * (p ^ a * m) := by ring
        nlinarith
      show (if 2 ≤ p then
          if p ^ (a + 1) * m ≠ 0 then
            if (p ^ (a + 1) * m) % p = 0 then 1 + multGo fuel p (p ^ (a + 1) * m / p) else 0
          else 0
        else 0) = a + 1
      rw [if_pos hp, if_pos (Nat.ne_of_gt hpos), if_pos hmod, hdiv, ih m fuel hm h0 hle]
      omega

theorem padMult_pow_mul {p : Nat} (hp : 2 ≤ p) {a m : Nat} (hm : ¬ p ∣ m)
    (h0 : 0 < m) : padMult p (p ^ a * m) = a :=
  multGo_spec hp a m _ hm h0 le_rfl

theorem exists_pow2_pow5 {N : Nat} :
    ∀ d, 0 < d → d ∣ 2 ^ N * 5 ^ N → ∃ a b, d = 2 ^ a * 5 ^ b := by
  intro d
  induction d using Nat.strong_induction_on with
  | _ d ih =>
    intro h0 hdvd
    by_cases h1 : d = 1
    · exact ⟨0, 0, by simp [h1]⟩
    · have hp : d.minFac.Prime := Nat.minFac_prime h1
      have hpd : d.minFac ∣ d := Nat.minFac_dvd d
      have hp25 : d.minFac = 2 ∨ d.minFac = 5 := by
        rcases (Nat.Prime.dvd_mul hp).mp (hpd.trans hdvd) with h | h
        · exact Or.inl ((Nat.prime_dvd_prime_iff_eq hp Nat.prime_two).mp
            (hp.dvd_of_dvd_pow h))
        · exact Or.inr ((Nat.prime_dvd_prime_iff_eq hp Nat.prime_five).mp
            (hp.dvd_of_dvd_pow h))
      have hplt : 2 ≤ d.minFac := hp.two_le
      have hd2 : d / d.minFac * d.minFac = d := Nat.div_mul_cancel hpd
      have hlt : d / d.minFac < d := Nat.div_lt_self h0 (by omega)
      have h0' : 0 < d / d.minFac := by
        rcases Nat.eq_zero_or_pos (d / d.minFac) with h | h
        · rw [h, zero_mul] at hd2; omega
        · exact h
      have hdvd' : d / d.minFac ∣ 2 ^ N * 5 ^ N :=
        (Nat.div_dvd_of_dvd hpd).trans hdvd
      obtain ⟨a, b, hab⟩ := ih _ hlt h0' hdvd'
      rcases hp25 with h2 | h5
      · exact ⟨a + 1, b, by rw [← hd2, hab, h2]; ring⟩
      · exact ⟨a, b + 1, by rw [← hd2, hab, h5]; ring⟩

theorem not_two_dvd_pow_five (b : Nat) : ¬ (2 ∣ 5 ^ b) := by
  intro h
  have := Nat.Prime.dvd_of_dvd_pow Nat.prime_two h
  omega

theorem not_five_dvd_pow_two (a : Nat) : ¬ (5 ∣ 2 ^ a) := by
  intro h
  have := Nat.Prime.dvd_of_dvd_pow Nat.prime_five h
  omega

theorem termQ_of_dvd_pow10 {d N : Nat} (h0 : 0 < d) (hdvd : d ∣ 10 ^ N) :
    2 ^ padMult 2 d * 5 ^ padMult 5 d = d := by
  have h10 : (10 : Nat) ^ N = 2 ^ N * 5 ^ N := by
    rw [show (10 : Nat) = 2 * 5 from rfl, mul_pow]
  rw [h10] at hdvd
  obtain ⟨a, b, rfl⟩ := exists_pow2_pow5 _ h0 hdvd
  rw [padMult_pow_mul (by omega) (not_two_dvd_pow_five b)
      (Nat.pos_pow_of_pos _ (by omega)),
    show 2 ^ a * 5 ^ b = 5 ^ b * 2 ^ a by ring,
    padMult_pow_mul (by omega) (not_five_dvd_pow_two a)
      (Nat.pos_pow_of_pos _ (by omega))]
  ring

theorem termQ_of_den_dvd {q : ℚ} {N : Nat} (h : (q.den : ℤ) ∣ (10 : ℤ) ^ N) :
    termQ q = true := by
  rw [termQ, beq_iff_eq]
  have h2 : (q.den : ℤ) ∣ ((10 ^ N : ℕ) : ℤ) := by push_cast; exact h
  have hN : q.den ∣ 10 ^ N := by exact_mod_cast h2
  exact termQ_of_dvd_pow10 q.den_pos hN

theorem termQ_den_one {q : ℚ} (h : q.den = 1) : termQ q = true := by
  rw [termQ, beq_iff_eq, h]
  decide

theorem decValue_termQ (D k : Nat) (e : ℤ) : termQ (decValue D k e) = true := by
  refine termQ_of_den_dvd (N := k + (-e).toNat) ?_
  have := Rat.den_dvd ((D : ℤ) * 10 ^ e.toNat) ((10 : ℤ) ^ (k + (-e).toNat))
  simpa [decValue] using this

theorem termQ_neg {q : ℚ} (h : termQ q = true) : termQ (-q) = true := by
  rw [termQ, Rat.neg_den] at *
  exact h

theorem decimalLit_termQ {r : List Char} {q : ℚ} (h : decimalLit r = some q) :
    termQ q = true := by
  simp only [decimalLit] at h
  split at h
  · split at h
    · exact absurd h (by simp)
    · split at h
      · exact absurd h (by simp)
      · rw [Option.some_inj] at h
        subst h
        exact decValue_termQ _ _ _
  · split at h
    · exact absurd h (by simp)
    · split at h
      · exact absurd h (by simp)
      · rw [Option.some_inj] at h
        subst h
        exact decValue_termQ _ _ _

theorem signedTail_num_termQ {r : List Char} {neg : Bool} {q : ℚ}
    (h : signedTail r neg = .num q) : termQ q = true := by
  unfold signedTail at h
  split at h
  · split at h <;> exact absurd h (by simp)
  · split at h
    · exact absurd h (by simp)
    · rw [JSNum.num.injEq] at h
      subst h
      split
      · exact termQ_neg (decimalLit_termQ (by assumption))
      · exact decimalLit_termQ (by assumption)

theorem radixTail_num_termQ {b : Nat} {r : List Char} {q : ℚ}
    (h : radixTail b r = .num q) : termQ q = true := by
  unfold radixTail at h
  split at h
  · rw [JSNum.num.injEq] at h
    subst h
    exact termQ_den_one (Rat.den_natCast _)
  · exact absurd h (by simp)

/-- Every finite number produced by `Number(string)` has a terminating
decimal expansion (in the double model: every finite double does). -/
theorem jsNumberList_num_termQ {s : List Char} {q : ℚ}
    (h : jsNumberList s = .num q) : termQ q = true := by
  simp only [jsNumberList] at h
  split at h
  · rw [JSNum.num.injEq] at h
    subst h
    decide
  · split at h
    · exact signedTail_num_termQ h
    · split at h
      · exact signedTail_num_termQ h
      · split at h
        · exact radixTail_num_termQ h
        · split at h
          · exact radixTail_num_termQ h
          · split at h
            · exact radixTail_num_termQ h
            · exact signedTail_num_termQ h

/-! ## Number round trip: auxiliary list facts -/

theorem takeWhile_all {p : Char → Bool} :
    ∀ {l : List Char}, (∀ c ∈ l, p c = true) → l.takeWhile p = l
  | [], _ => rfl
  | c :: t, h => by
    rw [List.takeWhile_cons, h c (by simp)]
    simp only [if_true]
    rw [takeWhile_all (fun d hd => h d (by simp [hd]))]

theorem takeWhile_append_stop {p : Char → Bool} :
    ∀ {x : List Char} {y : List Char}, (∀ c ∈ x, p c = true) →
      (∀ c, y.head? = some c → p c = false) → (x ++ y).takeWhile p = x
  | [], y, _, hy => by
    rcases y with _ | ⟨c, t⟩
    · rfl
    · simp [List.takeWhile_cons, hy c rfl]
  | c :: x, y, hx, hy => by
    rw [List.cons_append, List.takeWhile_cons, hx c (by simp)]
    simp only [if_true]
    rw [takeWhile_append_stop (fun d hd => hx d (by simp [hd])) hy]

theorem mem_of_head? {l : List Char} {c : Char} (h : l.head? = some c) : c ∈ l := by
  rcases l with _ | ⟨a, t⟩
  · exact absurd h (by simp)
  · rw [List.head?_cons, Option.some_inj] at h
    subst h
    exact List.mem_cons_self a t

theorem mem_of_getLast? {l : List Char} {c : Char} (h : l.getLast? = some c) : c ∈ l := by
  rw [← List.head?_reverse] at h
  exact List.mem_reverse.mp (mem_of_head? h)

theorem jsTrim_eq_self_of_all {l : List Char} (h : ∀ c ∈ l, isJsWS c = false) :
    jsTrimList l = l :=
  jsTrimList_eq_self (fun c hc => h c (mem_of_head? hc)) (fun c hc => h c (mem_of_getLast? hc))

theorem isDig_ne {c : Char} (h : isDig c = true) {d : Char}
    (hd : d.toNat < 48 ∨ 57 < d.toNat) : c ≠ d := by
  intro e
  subst e
  have := isDig_toNat h
  omega

/-! ## Number round trip: parsing the emitted digit string -/

theorem decimalLit_int {ip : List Char} (hip : ip ≠ [])
    (hd : ∀ c ∈ ip, isDig c = true) :
    decimalLit ip = some (decValue (digitsValNat ip) 0 0) := by
  have hds : ip.takeWhile (fun c => isDig c) = ip := takeWhile_all hd
  simp only [decimalLit, hds, List.drop_length]
  rw [if_neg (by simp)]
  rw [if_neg (by simpa [List.isEmpty_iff] using hip)]
  rfl

theorem decimalLit_frac {ip fp : List Char} (hip : ip ≠ [])
    (hipd : ∀ c ∈ ip, isDig c = true) (hfpd : ∀ c ∈ fp, isDig c = true) :
    decimalLit (ip ++ '.' :: fp) =
      some (decValue (digitsValNat (ip ++ fp)) fp.length 0) := by
  have hds : (ip ++ '.' :: fp).takeWhile (fun c => isDig c) = ip := by
    refine takeWhile_append_stop hipd ?_
    intro c hc
    rw [List.head?_cons, Option.some_inj] at hc
    subst hc
    decide
  have hfs : fp.takeWhile (fun c => isDig c) = fp := takeWhile_all hfpd
  simp only [decimalLit, hds, List.drop_left]
  rw [if_pos (by simp)]
  simp only [List.tail_cons, hfs, List.drop_length]
  rw [if_neg (by
    simp only [Bool.and_eq_true, List.isEmpty_iff]
    rintro ⟨h1, h2⟩
    exact hip h1)]
  rfl

theorem decimalLit_take_drop {D : List Char} {k : Nat}
    (hD : ∀ c ∈ D, isDig c = true) (hlen : k < D.length) :
    decimalLit (D.take (D.length - k) ++
        (if k = 0 then [] else '.' :: D.drop (D.length - k))) =
      some (decValue (digitsValNat D) k 0) := by
  have hip_ne : D.take (D.length - k) ≠ [] := by
    have : (D.take (D.length - k)).length = D.length - k := by
      rw [List.length_take]
      omega
    intro h
    rw [h] at this
    simp at this
    omega
  have hipd : ∀ c ∈ D.take (D.length - k), isDig c = true :=
    fun c hc => hD c (List.take_subset _ _ hc)
  have hfpd : ∀ c ∈ D.drop (D.length - k), isDig c = true :=
    fun c hc => hD c (List.drop_subset _ _ hc)
  by_cases hk : k = 0
  · subst hk
    rw [if_pos rfl, List.append_nil]
    have htake : D.take (D.length - 0) = D := by
      rw [Nat.sub_zero, List.take_length]
    rw [htake]
    exact decimalLit_int (by rintro rfl; simp at hlen) hD
  · rw [if_neg hk, decimalLit_frac hip_ne hipd hfpd, List.take_append_drop]
    congr 2
    rw [List.length_drop]
    omega

theorem signedTail_decimal {P : List Char} {v : ℚ}
    (hh : ∀ c, P.head? = some c → isDig c = true)
    (hlit : decimalLit P = some v) (neg : Bool) :
    signedTail P neg = .num (if neg then -v else v) := by
  have hInf : ¬ (P = "Infinity".data) := by
    intro he
    have hI : P.head? = some 'I' := by rw [he]; rfl
    exact absurd (hh _ hI) (by decide)
  unfold signedTail
  rw [if_neg hInf, hlit]

theorem jsNumberList_decimal {P : List Char} {v : ℚ}
    (hh : ∀ c, P.head? = some c → isDig c = true)
    (h2 : ∀ c, P.get? 1 = some c → isDig c = true ∨ c = '.')
    (hws : ∀ c ∈ P, isJsWS c = false)
    (hlit : decimalLit P = some v) :
    jsNumberList P = .num v := by
  have htrim : jsTrimList P = P := jsTrim_eq_self_of_all hws
  obtain ⟨c0, rest, rfl⟩ : ∃ c0 rest, P = c0 :: rest := by
    rcases P with _ | ⟨c0, rest⟩
    · rw [show decimalLit ([] : List Char) = none from rfl] at hlit
      exact Option.noConfusion hlit
    · exact ⟨c0, rest, rfl⟩
  have hc0 : isDig c0 = true := hh c0 rfl
  have hhexne : ∀ C : Char, isDig C = false → ¬ (C = '.') →
      ¬ ((c0 :: rest).take 2 = ['0', C]) := by
    intro C hCd hCdot hEq
    have hget : (c0 :: rest).get? 1 = some C := by
      rcases rest with _ | ⟨c1, rest'⟩
      · simp [List.take] at hEq
      · simp only [List.take, List.cons.injEq] at hEq
        rw [hEq.2.1]
        rfl
    rcases h2 C hget with h | h
    · rw [hCd] at h; exact absurd h (by simp)
    · exact hCdot h
  simp only [jsNumberList, htrim]
  rw [if_neg (by simp)]
  rw [if_neg (by
    simp only [List.head?_cons, Option.some_inj]
    exact isDig_ne hc0 (by decide))]
  rw [if_neg (by
    simp only [List.head?_cons, Option.some_inj]
    exact isDig_ne hc0 (by decide))]
  rw [if_neg (by
    simp only [Bool.or_eq_true, decide_eq_true_eq]
    rintro (h | h)
    · exact hhexne 'x' (by decide) (by decide) h
    · exact hhexne 'X' (by decide) (by decide) h)]
  rw [if_neg (by
    simp only [Bool.or_eq_true, decide_eq_true_eq]
    rintro (h | h)
    · exact hhexne 'o' (by decide) (by decide) h
    · exact hhexne 'O' (by decide) (by decide) h)]
  rw [if_neg (by
    simp only [Bool.or_eq_true, decide_eq_true_eq]
    rintro (h | h)
    · exact hhexne 'b' (by decide) (by decide) h
    · exact hhexne 'B' (by decide) (by decide) h)]
  rw [signedTail_decimal hh hlit false]
  simp

theorem jsNumberList_neg_decimal {P : List Char} {v : ℚ}
    (hh : ∀ c, P.head? = some c → isDig c = true)
    (hws : ∀ c ∈ P, isJsWS c = false)
    (hlit : decimalLit P = some v) :
    jsNumberList ('-' :: P) = .num (-v) := by
  have htrim : jsTrimList ('-' :: P) = '-' :: P := by
    refine jsTrim_eq_self_of_all ?_
    intro c hc
    rcases List.mem_cons.mp hc with rfl | hc
    · decide
    · exact hws c hc
  simp only [jsNumberList, htrim]
  rw [if_neg (by simp)]
  rw [if_neg (by simp)]
  rw [if_pos (show ('-' :: P).head? = some '-' from rfl)]
  simp only [List.tail_cons]
  rw [signedTail_decimal hh hlit true]
  simp

/-! ## Number round trip: main statement -/

/-- Abbreviations for the pieces `ratToString` builds (proof-side only). -/
def rtK (q : ℚ) : Nat := max (padMult 2 q.den) (padMult 5 q.den)

def rtM (q : ℚ) : Nat := q.num.natAbs * (10 ^ rtK q / q.den)

def rtD2 (q : ℚ) : List Char :=
  List.replicate (rtK q + 1 - (natDigits (rtM q)).length) '0' ++ natDigits (rtM q)

theorem ratToString_struct {q : ℚ} (hq0 : ¬ (q = 0)) (h : termQ q = true) :
    ratToString q =
      (if q < 0 then ['-'] else []) ++ (rtD2 q).take ((rtD2 q).length - rtK q) ++
      (if rtK q = 0 then [] else '.' :: (rtD2 q).drop ((rtD2 q).length - rtK q)) := by
  simp only [ratToString, if_neg hq0, rtD2, rtM, rtK]
  rw [if_pos (show (2 ^ padMult 2 q.den * 5 ^ padMult 5 q.den == q.den) = true from h)]

theorem rtD2_len {q : ℚ} : rtK q < (rtD2 q).length := by
  rw [rtD2, List.length_append, List.length_replicate]
  have := natDigits_ne_nil (rtM q)
  have hpos : 0 < (natDigits (rtM q)).length := List.length_pos.mpr this
  omega

theorem rtD2_digits {q : ℚ} : ∀ c ∈ rtD2 q, isDig c = true := by
  intro c hc
  rcases List.mem_append.mp hc with hc | hc
  · rw [List.eq_of_mem_replicate hc]
    decide
  · exact natDigits_all_digits _ c hc

theorem rtD2_val {q : ℚ} : digitsValNat (rtD2 q) = rtM q := by
  rw [rtD2, digitsValNat_replicate_zero, digitsValNat_natDigits]

theorem divInt_rtM {q : ℚ} (hq0 : ¬ (q = 0)) (h : termQ q = true) :
    Rat.divInt (rtM q) ((10 : ℤ) ^ rtK q) = if q < 0 then -q else q := by
  rw [termQ, beq_iff_eq] at h
  have hdvd : q.den ∣ 10 ^ rtK q := by
    rw [← h, show (10 : Nat) ^ rtK q = 2 ^ rtK q * 5 ^ rtK q by
      rw [← mul_pow]
      norm_num]
    exact mul_dvd_mul (pow_dvd_pow 2 (le_max_left _ _)) (pow_dvd_pow 5 (le_max_right _ _))
  have hc : q.den * (10 ^ rtK q / q.den) = 10 ^ rtK q := Nat.mul_div_cancel' hdvd
  have hcpos : 0 < 10 ^ rtK q / q.den := by
    rcases Nat.eq_zero_or_pos (10 ^ rtK q / q.den) with h0 | h0
    · rw [h0, Nat.mul_zero] at hc
      exact absurd hc.symm (Nat.ne_of_gt (pow_pos (by omega) _))
    · exact h0
  have hKcast : ((10 : ℤ) ^ rtK q) = ((10 ^ rtK q : ℕ) : ℤ) := by push_cast; ring
  have hstep : Rat.divInt (rtM q) ((10 : ℤ) ^ rtK q) =
      Rat.divInt q.num.natAbs q.den := by
    rw [hKcast, ← hc, rtM]
    push_cast
    exact Rat.divInt_mul_right (by exact_mod_cast Nat.ne_of_gt hcpos)
  rw [hstep]
  by_cases hneg : q < 0
  · rw [if_pos hneg]
    have hnum : q.num < 0 := Rat.num_neg.mpr hneg
    have : ((q.num.natAbs : ℤ)) = -q.num := Int.ofNat_natAbs_of_nonpos (le_of_lt hnum)
    rw [this, ← Rat.neg_divInt, Rat.num_divInt_den]
  · rw [if_neg hneg]
    have hpos : 0 < q := lt_of_le_of_ne (not_lt.mp hneg) (Ne.symm hq0)
    have hnum : 0 < q.num := Rat.num_pos.mpr hpos
    have : ((q.num.natAbs : ℤ)) = q.num := Int.natAbs_of_nonneg (le_of_lt hnum)
    rw [this, Rat.num_divInt_den]

theorem decValue_zero_exp (m k : Nat) :
    decValue m k 0 = Rat.divInt (m : ℤ) ((10 : ℤ) ^ k) := by
  simp [decValue]

/-- Serializing a terminating rational and converting the string back with
`Number` recovers the value exactly. -/
theorem jsNumber_ratToString {q : ℚ} (h : termQ q = true) :
    jsNumberList (ratToString q) = .num q := by
  by_cases hq0 : q = 0
  · subst hq0
    decide
  · have hlit : decimalLit ((rtD2 q).take ((rtD2 q).length - rtK q) ++
        (if rtK q = 0 then [] else '.' :: (rtD2 q).drop ((rtD2 q).length - rtK q))) =
        some (decValue (rtM q) (rtK q) 0) := by
      rw [← rtD2_val]
      exact decimalLit_take_drop rtD2_digits rtD2_len
    have hip_ne : (rtD2 q).take ((rtD2 q).length - rtK q) ≠ [] := by
      intro he
      have hlen2 := congrArg List.length he
      rw [List.length_take, List.length_nil] at hlen2
      have := rtD2_len (q := q)
      omega
    have hmem : ∀ c ∈ (rtD2 q).take ((rtD2 q).length - rtK q) ++
        (if rtK q = 0 then [] else '.' :: (rtD2 q).drop ((rtD2 q).length - rtK q)),
        isDig c = true ∨ c = '.' := by
      intro c hc
      rcases List.mem_append.mp hc with hc | hc
      · exact Or.inl (rtD2_digits c (List.take_subset _ _ hc))
      · by_cases hk : rtK q = 0
        · rw [if_pos hk] at hc
          exact absurd hc (List.not_mem_nil c)
        · rw [if_neg hk] at hc
          simp only [List.mem_cons] at hc
          rcases hc with rfl | hc
          · exact Or.inr rfl
          · exact Or.inl (rtD2_digits c (List.drop_subset _ _ hc))
    have hh : ∀ c, ((rtD2 q).take ((rtD2 q).length - rtK q) ++
        (if rtK q = 0 then [] else '.' :: (rtD2 q).drop ((rtD2 q).length - rtK q))).head? =
          some c → isDig c = true := by
      intro c hc
      rw [List.head?_append_of_ne_nil _ hip_ne] at hc
      exact rtD2_digits c (List.take_subset _ _ (mem_of_head? hc))
    have h2 : ∀ c, ((rtD2 q).take ((rtD2 q).length - rtK q) ++
        (if rtK q = 0 then [] else '.' :: (rtD2 q).drop ((rtD2 q).length - rtK q))).get? 1 =
          some c → isDig c = true ∨ c = '.' := by
      intro c hc
      exact hmem c (List.get?_mem hc)
    have hws : ∀ c ∈ (rtD2 q).take ((rtD2 q).length - rtK q) ++
        (if rtK q = 0 then [] else '.' :: (rtD2 q).drop ((rtD2 q).length - rtK q)),
        isJsWS c = false := by
      intro c hc
      rcases hmem c hc with hd | rfl
      · exact not_isJsWS_of_isDig hd
      · decide
    have hval : decValue (rtM q) (rtK q) 0 = if q < 0 then -q else q := by
      rw [decValue_zero_exp, divInt_rtM hq0 h]
    rw [ratToString_struct hq0 h]
    by_cases hneg : q < 0
    · rw [if_pos hneg, List.append_assoc, List.singleton_append,
        jsNumberList_neg_decimal hh hws hlit, hval, if_pos hneg]
      simp
    · rw [if_neg hneg, List.nil_append,
        jsNumberList_decimal hh h2 hws hlit, hval, if_neg hneg]

/-! ## Characters of a serialized number -/

theorem ratToString_chars {q : ℚ} (h : termQ q = true) :
    ∀ c ∈ ratToString q, isDig c = true ∨ c = '-' ∨ c = '.' := by
  by_cases hq0 : q = 0
  · subst hq0
    intro c hc
    rw [show ratToString 0 = ['0'] from rfl, List.mem_singleton] at hc
    subst hc
    exact Or.inl (by decide)
  · rw [ratToString_struct hq0 h]
    intro c hc
    rcases List.mem_append.mp hc with hc | hc
    · rcases List.mem_append.mp hc with hc | hc
      · split at hc
        · rw [List.mem_singleton] at hc
          exact Or.inr (Or.inl hc)
        · exact absurd hc (List.not_mem_nil c)
      · exact Or.inl (rtD2_digits c (List.take_subset _ _ hc))
    · split at hc
      · exact absurd hc (List.not_mem_nil c)
      · rcases List.mem_cons.mp hc with rfl | hc
        · exact Or.inr (Or.inr rfl)
        · exact Or.inl (rtD2_digits c (List.drop_subset _ _ hc))

theorem ratToString_not_letter {q : ℚ} (h : termQ q = true) :
    ∀ c ∈ ratToString q, isLetter c = false := by
  intro c hc
  rcases ratToString_chars h c hc with hd | rfl | rfl
  · exact not_isLetter_of_isDig hd
  · decide
  · decide

theorem ratToString_not_sep {q : ℚ} (h : termQ q = true) :
    ∀ c ∈ ratToString q, isSepChar c = false := by
  intro c hc
  rcases ratToString_chars h c hc with hd | rfl | rfl
  · exact not_isSepChar_of_isDig hd
  · decide
  · decide

theorem ratToString_not_ws {q : ℚ} (h : termQ q = true) :
    ∀ c ∈ ratToString q, isJsWS c = false := by
  intro c hc
  rcases ratToString_chars h c hc with hd | rfl | rfl
  · exact not_isJsWS_of_isDig hd
  · decide
  · decide

theorem ratToString_ne_nil {q : ℚ} (h : termQ q = true) : ratToString q ≠ [] := by
  by_cases hq0 : q = 0
  · subst hq0
    decide
  · rw [ratToString_struct hq0 h]
    intro he
    rcases List.append_eq_nil.mp he with ⟨h1, _⟩
    rcases List.append_eq_nil.mp h1 with ⟨_, h2⟩
    have hlen2 := congrArg List.length h2
    rw [List.length_take, List.length_nil] at hlen2
    have := rtD2_len (q := q)
    omega

/-! ## Emission decomposition -/

/-- Pull the `emitCommand` field text apart from its command letter. -/
def emitArgs (c : PathCmd) : List Char :=
  if c.command = 'M' || c.command = 'm' || c.command = 'L' || c.command = 'l' then
    fieldToString c.x ++ ',' :: fieldToString c.y ++ [' ']
  else if c.command = 'C' || c.command = 'c' then
    fieldToString c.x1 ++ ',' :: fieldToString c.y1 ++ ' ' ::
    fieldToString c.x2 ++ ',' :: fieldToString c.y2 ++ ' ' ::
    fieldToString c.x ++ ',' :: fieldToString c.y ++ [' ']
  else if c.command = 'A' || c.command = 'a' then
    fieldToString c.rx ++ ',' :: fieldToString c.ry ++ ' ' ::
    fieldToString c.xAxisRotation ++ ' ' ::
    fieldToString c.largeArcFlag ++ ',' :: fieldToString c.sweepFlag ++ ' ' ::
    fieldToString c.x ++ ',' :: fieldToString c.y ++ [' ']
  else []

theorem emitCommand_eq (c : PathCmd) : emitCommand c = c.command :: ' ' :: emitArgs c := rfl

/-- The field text of an argument-carrying command, without its trailing
space (proof-side). -/
def emitCore (c : PathCmd) : List Char :=
  if c.command = 'M' || c.command = 'm' || c.command = 'L' || c.command = 'l' then
    fieldToString c.x ++ ',' :: fieldToString c.y
  else if c.command = 'C' || c.command = 'c' then
    fieldToString c.x1 ++ ',' :: fieldToString c.y1 ++ ' ' ::
    fieldToString c.x2 ++ ',' :: fieldToString c.y2 ++ ' ' ::
    fieldToString c.x ++ ',' :: fieldToString c.y
  else if c.command = 'A' || c.command = 'a' then
    fieldToString c.rx ++ ',' :: fieldToString c.ry ++ ' ' ::
    fieldToString c.xAxisRotation ++ ' ' ::
    fieldToString c.largeArcFlag ++ ',' :: fieldToString c.sweepFlag ++ ' ' ::
    fieldToString c.x ++ ',' :: fieldToString c.y
  else []

/-- Whether the command letter carries arguments in `generatePath`. -/
def isArgful (c : PathCmd) : Bool :=
  c.command = 'M' || c.command = 'm' || c.command = 'L' || c.command = 'l' ||
  c.command = 'C' || c.command = 'c' || c.command = 'A' || c.command = 'a'

theorem emitArgs_decomp (c : PathCmd) :
    emitArgs c = emitCore c ++ (if isArgful c then [' '] else []) := by
  unfold emitArgs emitCore isArgful
  split
  · rw [if_pos (by simp only [Bool.or_eq_true, decide_eq_true_eq] at *; tauto)]
  · split
    · rw [if_pos (by simp only [Bool.or_eq_true, decide_eq_true_eq] at *; tauto)]
    · split
      · rw [if_pos (by simp only [Bool.or_eq_true, decide_eq_true_eq] at *; tauto)]
      · rw [if_neg (by simp only [Bool.or_eq_true, decide_eq_true_eq] at *; tauto)]
        simp

/-! ## Parsing one emitted command -/

theorem getLast?_append_right {a b : List Char} (h : b ≠ []) :
    (a ++ b).getLast? = b.getLast? := by
  rw [← List.head?_reverse, List.reverse_append,
    List.head?_append_of_ne_nil _ (by simpa using h), List.head?_reverse]

theorem wfVal_elim {v : JVal} (h : wfVal v = true) :
    ∃ q, v = .defined (.num q) ∧ termQ q = true ∧ decimalRange q = true := by
  cases v with
  | absent => exact absurd h (by decide)
  | undef => exact absurd h (by decide)
  | defined n =>
    cases n with
    | nan => exact absurd h (by decide)
    | posInf => exact absurd h (by decide)
    | negInf => exact absurd h (by decide)
    | num q =>
      rw [wfVal, Bool.and_eq_true] at h
      exact ⟨q, rfl, h.1, h.2⟩

theorem parseMatch_Z {cmd : Char} (h : cmd = 'Z' ∨ cmd = 'z') (r : List Char) :
    parseMatch ⟨cmd, r⟩ = { command := cmd } := by
  rcases h with rfl | rfl <;> rfl

theorem jsTrimList_ws {w : List Char} (hw : ∀ c ∈ w, isJsWS c = true) :
    jsTrimList w = [] := by
  unfold jsTrimList jsTrimLeft jsTrimRight
  rw [List.dropWhile_eq_nil_iff.mpr (fun c hc => hw c hc)]
  rfl

theorem jsTrimList_append_ws {l w : List Char} (hw : ∀ c ∈ w, isJsWS c = true)
    (hh : ∀ c, l.head? = some c → isJsWS c = false)
    (hl : ∀ c, l.getLast? = some c → isJsWS c = false) :
    jsTrimList (l ++ w) = l := by
  rcases l with _ | ⟨c, t⟩
  · rw [List.nil_append]
    exact jsTrimList_ws hw
  · unfold jsTrimList
    rw [show jsTrimLeft ((c :: t) ++ w) = (c :: t) ++ w by
      unfold jsTrimLeft
      rw [List.cons_append, List.dropWhile_cons, hh c rfl]
      simp]
    rw [jsTrimRight_append_ws hw, jsTrimRight_eq_self hl]

theorem rawGroup2_space {cmd : Char} {args : List Char} (hne : args ≠ [])
    (hh : ∀ c, args.head? = some c → isJsWS c = false) :
    (rawGroup2 ⟨cmd, ' ' :: args⟩).getD [] = args := by
  rcases args with _ | ⟨c, t⟩
  · exact absurd rfl hne
  · unfold rawGroup2
    simp only
    rw [show (' ' :: c :: t).dropWhile (fun c => isJsWS c) = c :: t by
      rw [List.dropWhile_cons, show isJsWS ' ' = true by decide]
      simp only [if_true]
      rw [List.dropWhile_cons, hh c rfl]
      simp]
    simp

theorem splitSep_cons_tok {t rest : List Char} {s0 : Char}
    (ht : ∀ c ∈ t, isSepChar c = false) (hs : isSepChar s0 = true)
    (hrest : ∀ c, rest.head? = some c → isSepChar c = false) :
    splitSep (t ++ s0 :: rest) = t :: splitSep rest := by
  refine splitSep_tok_cons ht hs ?_
  rcases rest with _ | ⟨c, r⟩
  · exact Or.inl rfl
  · exact Or.inr ⟨c, r, rfl, hrest c rfl⟩

theorem fieldToString_num (q : ℚ) (h : decimalRange q = true) :
    fieldToString (.defined (.num q)) = ratToString q := by
  show jsToString q = ratToString q
  unfold jsToString
  rw [if_pos h]

theorem parseMatch_emit_ML {c : PathCmd} {w : List Char}
    (hfam : c.command = 'M' ∨ c.command = 'm' ∨ c.command = 'L' ∨ c.command = 'l')
    (hx : wfVal c.x = true) (hy : wfVal c.y = true)
    (hw : ∀ ch ∈ w, isJsWS ch = true) :
    parseMatch ⟨c.command, ' ' :: (emitCore c ++ w)⟩ = canonical c := by
  obtain ⟨qx, hqx, htx, hdx⟩ := wfVal_elim hx
  obtain ⟨qy, hqy, hty, hdy⟩ := wfVal_elim hy
  have hZ : (c.command = 'Z' || c.command = 'z') = false := by
    rcases hfam with h | h | h | h <;> rw [h] <;> decide
  have hMb : (c.command = 'M' || c.command = 'm' || c.command = 'L' || c.command = 'l')
      = true := by
    rcases hfam with h | h | h | h <;> rw [h] <;> decide
  have hcore : emitCore c = ratToString qx ++ ',' :: ratToString qy := by
    unfold emitCore
    rw [if_pos hMb, hqx, hqy, fieldToString_num _ hdx, fieldToString_num _ hdy]
  have hxne := ratToString_ne_nil htx
  have hyne := ratToString_ne_nil hty
  obtain ⟨cx, tx, hxc⟩ : ∃ a t, ratToString qx = a :: t := by
    rcases hxs : ratToString qx with _ | ⟨a, t⟩
    · exact absurd hxs hxne
    · exact ⟨_, _, rfl⟩
  have hargs_head : ∀ ch, (emitCore c ++ w).head? = some ch → isJsWS ch = false := by
    intro ch hch
    rw [hcore, hxc] at hch
    simp only [List.cons_append, List.head?_cons, Option.some_inj] at hch
    subst hch
    exact ratToString_not_ws htx _ (by rw [hxc]; exact List.mem_cons_self _ _)
  have hargs_ne : emitCore c ++ w ≠ [] := by
    rw [hcore, hxc]
    simp
  have hgroup : (rawGroup2 ⟨c.command, ' ' :: (emitCore c ++ w)⟩).getD [] =
      emitCore c ++ w := rawGroup2_space hargs_ne hargs_head
  have htrim : jsTrimList (emitCore c ++ w) = emitCore c := by
    refine jsTrimList_append_ws hw ?_ ?_
    · intro ch hch
      rw [hcore, hxc] at hch
      simp only [List.cons_append, List.head?_cons, Option.some_inj] at hch
      subst hch
      exact ratToString_not_ws htx _ (by rw [hxc]; exact List.mem_cons_self _ _)
    · intro ch hch
      rw [hcore, getLast?_append_right (by simp),
        show (',' :: ratToString qy) = [','] ++ ratToString qy from rfl,
        getLast?_append_right hyne] at hch
      exact ratToString_not_ws hty ch (mem_of_getLast? hch)
  have hsplit : splitSep (emitCore c) = [ratToString qx, ratToString qy] := by
    rw [hcore]
    rw [splitSep_cons_tok (ratToString_not_sep htx) (by decide) (fun ch hch => by
      exact ratToString_not_sep hty ch (mem_of_head? hch))]
    rw [splitSep_all_nonsep (ratToString_not_sep hty)]
  simp only [parseMatch]
  rw [if_neg (by rw [hZ]; simp)]
  rw [hgroup, htrim, hsplit]
  rw [if_pos hMb]
  simp only [List.map_cons, List.map_nil]
  rw [jsNumber_ratToString htx, jsNumber_ratToString hty]
  unfold canonical
  rw [if_pos hMb, hqx, hqy]
  simp [coordAt]

theorem getLast?_skip_tok {t rest : List Char} {s0 : Char} :
    (t ++ s0 :: rest).getLast? = (s0 :: rest).getLast? :=
  getLast?_append_right (by simp)

theorem getLast?_skip_sep {rest : List Char} {s0 : Char} (h : rest ≠ []) :
    (s0 :: rest).getLast? = rest.getLast? := by
  rw [show s0 :: rest = [s0] ++ rest from rfl, getLast?_append_right h]

theorem parseMatch_emit_C {c : PathCmd} {w : List Char}
    (hfam : c.command = 'C' ∨ c.command = 'c')
    (h1 : wfVal c.x1 = true) (h2 : wfVal c.y1 = true)
    (h3 : wfVal c.x2 = true) (h4 : wfVal c.y2 = true)
    (hx : wfVal c.x = true) (hy : wfVal c.y = true)
    (hw : ∀ ch ∈ w, isJsWS ch = true) :
    parseMatch ⟨c.command, ' ' :: (emitCore c ++ w)⟩ = canonical c := by
  obtain ⟨q1, hq1, ht1, hd1⟩ := wfVal_elim h1
  obtain ⟨q2, hq2, ht2, hd2⟩ := wfVal_elim h2
  obtain ⟨q3, hq3, ht3, hd3⟩ := wfVal_elim h3
  obtain ⟨q4, hq4, ht4, hd4⟩ := wfVal_elim h4
  obtain ⟨qx, hqx, htx, hdx⟩ := wfVal_elim hx
  obtain ⟨qy, hqy, hty, hdy⟩ := wfVal_elim hy
  have hZ : (c.command = 'Z' || c.command = 'z') = false := by
    rcases hfam with h | h <;> rw [h] <;> decide
  have hMb : (c.command = 'M' || c.command = 'm' || c.command = 'L' || c.command = 'l')
      = false := by
    rcases hfam with h | h <;> rw [h] <;> decide
  have hCb : (c.command = 'C' || c.command = 'c') = true := by
    rcases hfam with h | h <;> rw [h] <;> decide
  have hcore : emitCore c = ratToString q1 ++ ',' :: (ratToString q2 ++ ' ' ::
      (ratToString q3 ++ ',' :: (ratToString q4 ++ ' ' ::
      (ratToString qx ++ ',' :: ratToString qy)))) := by
    unfold emitCore
    rw [if_neg (by rw [hMb]; simp), if_pos hCb, hq1, hq2, hq3, hq4, hqx, hqy]
    simp only [fieldToString_num _ hd1, fieldToString_num _ hd2, fieldToString_num _ hd3,
      fieldToString_num _ hd4, fieldToString_num _ hdx, fieldToString_num _ hdy,
      List.cons_append, List.append_assoc]
  obtain ⟨c1, t1, hc1⟩ : ∃ a t, ratToString q1 = a :: t := by
    rcases hs : ratToString q1 with _ | ⟨a, t⟩
    · exact absurd hs (ratToString_ne_nil ht1)
    · exact ⟨_, _, rfl⟩
  have hargs_head : ∀ ch, (emitCore c ++ w).head? = some ch → isJsWS ch = false := by
    intro ch hch
    rw [hcore, hc1] at hch
    simp only [List.cons_append, List.head?_cons, Option.some_inj] at hch
    subst hch
    exact ratToString_not_ws ht1 _ (by rw [hc1]; exact List.mem_cons_self _ _)
  have hargs_ne : emitCore c ++ w ≠ [] := by
    rw [hcore, hc1]
    simp
  have hgroup : (rawGroup2 ⟨c.command, ' ' :: (emitCore c ++ w)⟩).getD [] =
      emitCore c ++ w := rawGroup2_space hargs_ne hargs_head
  have htrim : jsTrimList (emitCore c ++ w) = emitCore c := by
    refine jsTrimList_append_ws hw ?_ ?_
    · intro ch hch
      rw [hcore, hc1] at hch
      simp only [List.cons_append, List.head?_cons, Option.some_inj] at hch
      subst hch
      exact ratToString_not_ws ht1 _ (by rw [hc1]; exact List.mem_cons_self _ _)
    · intro ch hch
      rw [hcore, getLast?_skip_tok, getLast?_skip_sep (by simp),
        getLast?_skip_tok, getLast?_skip_sep (by simp),
        getLast?_skip_tok, getLast?_skip_sep (by simp),
        getLast?_skip_tok, getLast?_skip_sep (by simp),
        getLast?_skip_tok, getLast?_skip_sep (ratToString_ne_nil hty)] at hch
      exact ratToString_not_ws hty ch (mem_of_getLast? hch)
  have hhd : ∀ {qa : ℚ}, termQ qa = true → ∀ rest ch,
      (ratToString qa ++ rest).head? = some ch → isSepChar ch = false := by
    intro qa hta rest ch hch
    rw [List.head?_append_of_ne_nil _ (ratToString_ne_nil hta)] at hch
    exact ratToString_not_sep hta ch (mem_of_head? hch)
  have hsplit : splitSep (emitCore c) =
      [ratToString q1, ratToString q2, ratToString q3, ratToString q4,
       ratToString qx, ratToString qy] := by
    rw [hcore]
    rw [splitSep_cons_tok (ratToString_not_sep ht1) (by decide) (hhd ht2 _)]
    rw [splitSep_cons_tok (ratToString_not_sep ht2) (by decide) (hhd ht3 _)]
    rw [splitSep_cons_tok (ratToString_not_sep ht3) (by decide) (hhd ht4 _)]
    rw [splitSep_cons_tok (ratToString_not_sep ht4) (by decide) (hhd htx _)]
    rw [splitSep_cons_tok (ratToString_not_sep htx) (by decide) (fun ch hch => by
      exact ratToString_not_sep hty ch (mem_of_head? hch))]
    rw [splitSep_all_nonsep (ratToString_not_sep hty)]
  simp only [parseMatch]
  rw [if_neg (by rw [hZ]; simp)]
  rw [hgroup, htrim, hsplit]
  rw [if_neg (by rw [hMb]; simp), if_pos hCb]
  simp only [List.map_cons, List.map_nil]
  rw [jsNumber_ratToString ht1, jsNumber_ratToString ht2, jsNumber_ratToString ht3,
    jsNumber_ratToString ht4, jsNumber_ratToString htx, jsNumber_ratToString hty]
  unfold canonical
  rw [if_neg (by rw [hMb]; simp), if_pos hCb, hq1, hq2, hq3, hq4, hqx, hqy]
  simp [coordAt]

theorem parseMatch_emit_A {c : PathCmd} {w : List Char}
    (hfam : c.command = 'A' ∨ c.command = 'a')
    (h1 : wfVal c.rx = true) (h2 : wfVal c.ry = true)
    (h3 : wfVal c.xAxisRotation = true) (h4 : wfVal c.largeArcFlag = true)
    (h5 : wfVal c.sweepFlag = true)
    (hx : wfVal c.x = true) (hy : wfVal c.y = true)
    (hw : ∀ ch ∈ w, isJsWS ch = true) :
    parseMatch ⟨c.command, ' ' :: (emitCore c ++ w)⟩ = canonical c := by
  obtain ⟨q1, hq1, ht1, hd1⟩ := wfVal_elim h1
  obtain ⟨q2, hq2, ht2, hd2⟩ := wfVal_elim h2
  obtain ⟨q3, hq3, ht3, hd3⟩ := wfVal_elim h3
  obtain ⟨q4, hq4, ht4, hd4⟩ := wfVal_elim h4
  obtain ⟨q5, hq5, ht5, hd5⟩ := wfVal_elim h5
  obtain ⟨qx, hqx, htx, hdx⟩ := wfVal_elim hx
  obtain ⟨qy, hqy, hty, hdy⟩ := wfVal_elim hy
  have hZ : (c.command = 'Z' || c.command = 'z') = false := by
    rcases hfam with h | h <;> rw [h] <;> decide
  have hMb : (c.command = 'M' || c.command = 'm' || c.command = 'L' || c.command = 'l')
      = false := by
    rcases hfam with h | h <;> rw [h] <;> decide
  have hCb : (c.command = 'C' || c.command = 'c') = false := by
    rcases hfam with h | h <;> rw [h] <;> decide
  have hAb : (c.command = 'A' || c.command = 'a') = true := by
    rcases hfam with h | h <;> rw [h] <;> decide
  have hcore : emitCore c = ratToString q1 ++ ',' :: (ratToString q2 ++ ' ' ::
      (ratToString q3 ++ ' ' :: (ratToString q4 ++ ',' :: (ratToString q5 ++ ' ' ::
      (ratToString qx ++ ',' :: ratToString qy))))) := by
    unfold emitCore
    rw [if_neg (by rw [hMb]; simp), if_neg (by rw [hCb]; simp), if_pos hAb,
      hq1, hq2, hq3, hq4, hq5, hqx, hqy]
    simp only [fieldToString_num _ hd1, fieldToString_num _ hd2, fieldToString_num _ hd3,
      fieldToString_num _ hd4, fieldToString_num _ hd5, fieldToString_num _ hdx,
      fieldToString_num _ hdy, List.cons_append, List.append_assoc]
  obtain ⟨c1, t1, hc1⟩ : ∃ a t, ratToString q1 = a :: t := by
    rcases hs : ratToString q1 with _ | ⟨a, t⟩
    · exact absurd hs (ratToString_ne_nil ht1)
    · exact ⟨_, _, rfl⟩
  have hargs_head : ∀ ch, (emitCore c ++ w).head? = some ch → isJsWS ch = false := by
    intro ch hch
    rw [hcore, hc1] at hch
    simp only [List.cons_append, List.head?_cons, Option.some_inj] at hch
    subst hch
    exact ratToString_not_ws ht1 _ (by rw [hc1]; exact List.mem_cons_self _ _)
  have hargs_ne : emitCore c ++ w ≠ [] := by
    rw [hcore, hc1]
    simp
  have hgroup : (rawGroup2 ⟨c.command, ' ' :: (emitCore c ++ w)⟩).getD [] =
      emitCore c ++ w := rawGroup2_space hargs_ne hargs_head
  have htrim : jsTrimList (emitCore c ++ w) = emitCore c := by
    refine jsTrimList_append_ws hw ?_ ?_
    · intro ch hch
      rw [hcore, hc1] at hch
      simp only [List.cons_append, List.head?_cons, Option.some_inj] at hch
      subst hch
      exact ratToString_not_ws ht1 _ (by rw [hc1]; exact List.mem_cons_self _ _)
    · intro ch hch
      rw [hcore, getLast?_skip_tok, getLast?_skip_sep (by simp),
        getLast?_skip_tok, getLast?_skip_sep (by simp),
        getLast?_skip_tok, getLast?_skip_sep (by simp),
        getLast?_skip_tok, getLast?_skip_sep (by simp),
        getLast?_skip_tok, getLast?_skip_sep (by simp),
        getLast?_skip_tok, getLast?_skip_sep (ratToString_ne_nil hty)] at hch
      exact ratToString_not_ws hty ch (mem_of_getLast? hch)
  have hhd : ∀ {qa : ℚ}, termQ qa = true → ∀ rest ch,
      (ratToString qa ++ rest).head? = some ch → isSepChar ch = false := by
    intro qa hta rest ch hch
    rw [List.head?_append_of_ne_nil _ (ratToString_ne_nil hta)] at hch
    exact ratToString_not_sep hta ch (mem_of_head? hch)
  have hsplit : splitSep (emitCore c) =
      [ratToString q1, ratToString q2, ratToString q3, ratToString q4,
       ratToString q5, ratToString qx, ratToString qy] := by
    rw [hcore]
    rw [splitSep_cons_tok (ratToString_not_sep ht1) (by decide) (hhd ht2 _)]
    rw [splitSep_cons_tok (ratToString_not_sep ht2) (by decide) (hhd ht3 _)]
    rw [splitSep_cons_tok (ratToString_not_sep ht3) (by decide) (hhd ht4 _)]
    rw [splitSep_cons_tok (ratToString_not_sep ht4) (by decide) (hhd ht5 _)]
    rw [splitSep_cons_tok (ratToString_not_sep ht5) (by decide) (hhd htx _)]
    rw [splitSep_cons_tok (ratToString_not_sep htx) (by decide) (fun ch hch => by
      exact ratToString_not_sep hty ch (mem_of_head? hch))]
    rw [splitSep_all_nonsep (ratToString_not_sep hty)]
  simp only [parseMatch]
  rw [if_neg (by rw [hZ]; simp)]
  rw [hgroup, htrim, hsplit]
  rw [if_neg (by rw [hMb]; simp), if_neg (by rw [hCb]; simp), if_pos hAb]
  simp only [List.map_cons, List.map_nil]
  rw [jsNumber_ratToString ht1, jsNumber_ratToString ht2, jsNumber_ratToString ht3,
    jsNumber_ratToString ht4, jsNumber_ratToString ht5, jsNumber_ratToString htx,
    jsNumber_ratToString hty]
  unfold canonical
  rw [if_neg (by rw [hMb]; simp), if_neg (by rw [hCb]; simp), if_pos hAb,
    hq1, hq2, hq3, hq4, hq5, hqx, hqy]
  simp [coordAt]

/-! ## Parsing one emitted command: wrapper -/

theorem isCmdChar_cases (a : Char) (h : isCmdChar a = true) :
    a = 'M' ∨ a = 'm' ∨ a = 'L' ∨ a = 'l' ∨ a = 'C' ∨ a = 'c' ∨
    a = 'A' ∨ a = 'a' ∨ a = 'Z' ∨ a = 'z' := by
  rw [isCmdChar] at h
  simpa only [Bool.or_eq_true, decide_eq_true_eq, or_assoc] using h

theorem parseMatch_emit {c : PathCmd} (hwf : wfCmd c = true) {w : List Char}
    (hw : ∀ ch ∈ w, isJsWS ch = true) :
    parseMatch ⟨c.command, ' ' :: (emitCore c ++ w)⟩ = canonical c := by
  rw [wfCmd, Bool.and_eq_true] at hwf
  obtain ⟨hcmd0, hall⟩ := hwf
  rw [List.all_eq_true] at hall
  have hcmd := isCmdChar_cases c.command hcmd0
  have hML : (c.command = 'M' ∨ c.command = 'm' ∨ c.command = 'L' ∨ c.command = 'l') →
      parseMatch ⟨c.command, ' ' :: (emitCore c ++ w)⟩ = canonical c := by
    intro hfam
    have hsf : schemaFields c = [c.x, c.y] := by
      unfold schemaFields
      rw [if_pos (by rcases hfam with h | h | h | h <;> rw [h] <;> decide)]
    exact parseMatch_emit_ML hfam
      (hall _ (by rw [hsf]; simp)) (hall _ (by rw [hsf]; simp)) hw
  have hCc : (c.command = 'C' ∨ c.command = 'c') →
      parseMatch ⟨c.command, ' ' :: (emitCore c ++ w)⟩ = canonical c := by
    intro hfam
    have hsf : schemaFields c = [c.x1, c.y1, c.x2, c.y2, c.x, c.y] := by
      unfold schemaFields
      rw [if_neg (by rcases hfam with h | h <;> rw [h] <;> decide),
        if_pos (by rcases hfam with h | h <;> rw [h] <;> decide)]
    exact parseMatch_emit_C hfam
      (hall _ (by rw [hsf]; simp)) (hall _ (by rw [hsf]; simp))
      (hall _ (by rw [hsf]; simp)) (hall _ (by rw [hsf]; simp))
      (hall _ (by rw [hsf]; simp)) (hall _ (by rw [hsf]; simp)) hw
  have hAa : (c.command = 'A' ∨ c.command = 'a') →
      parseMatch ⟨c.command, ' ' :: (emitCore c ++ w)⟩ = canonical c := by
    intro hfam
    have hsf : schemaFields c =
        [c.rx, c.ry, c.xAxisRotation, c.largeArcFlag, c.sweepFlag, c.x, c.y] := by
      unfold schemaFields
      rw [if_neg (by rcases hfam with h | h <;> rw [h] <;> decide),
        if_neg (by rcases hfam with h | h <;> rw [h] <;> decide),
        if_pos (by rcases hfam with h | h <;> rw [h] <;> decide)]
    exact parseMatch_emit_A hfam
      (hall _ (by rw [hsf]; simp)) (hall _ (by rw [hsf]; simp))
      (hall _ (by rw [hsf]; simp)) (hall _ (by rw [hsf]; simp))
      (hall _ (by rw [hsf]; simp)) (hall _ (by rw [hsf]; simp))
      (hall _ (by rw [hsf]; simp)) hw
  have hZz : (c.command = 'Z' ∨ c.command = 'z') →
      parseMatch ⟨c.command, ' ' :: (emitCore c ++ w)⟩ = canonical c := by
    intro hfam
    rw [parseMatch_Z hfam]
    unfold canonical
    rw [if_neg (by rcases hfam with h | h <;> rw [h] <;> decide),
      if_neg (by rcases hfam with h | h <;> rw [h] <;> decide),
      if_neg (by rcases hfam with h | h <;> rw [h] <;> decide)]
  rcases hcmd with h | h | h | h | h | h | h | h | h | h
  · exact hML (Or.inl h)
  · exact hML (Or.inr (Or.inl h))
  · exact hML (Or.inr (Or.inr (Or.inl h)))
  · exact hML (Or.inr (Or.inr (Or.inr h)))
  · exact hCc (Or.inl h)
  · exact hCc (Or.inr h)
  · exact hAa (Or.inl h)
  · exact hAa (Or.inr h)
  · exact hZz (Or.inl h)
  · exact hZz (Or.inr h)

/-! ## Scanner facts -/

theorem not_isLetter_of_isJsWS {c : Char} (h : isJsWS c = true) : isLetter c = false := by
  rcases hl : isLetter c with _ | _
  · rfl
  · rw [not_isJsWS_of_isLetter hl] at h
    exact absurd h (by simp)

theorem not_isCmdChar_of_isJsWS {c : Char} (h : isJsWS c = true) : isCmdChar c = false := by
  rcases hc : isCmdChar c with _ | _
  · rfl
  · rw [not_isJsWS_of_isLetter (isLetter_of_isCmdChar hc)] at h
    exact absurd h (by simp)

theorem scanGo_none_skip : ∀ {w : List Char}, (∀ c ∈ w, isCmdChar c = false) →
    scanGo w none = []
  | [], _ => rfl
  | c :: t, h => by
    rw [show scanGo (c :: t) none = scanGo t none by
      simp [scanGo, h c (List.mem_cons_self c t)]]
    exact scanGo_none_skip (fun d hd => h d (List.mem_cons.mpr (Or.inr hd)))

theorem scanGo_args_nil : ∀ {mid : List Char} (cmd : Char) (acc : List Char),
    (∀ c ∈ mid, isLetter c = false) →
    scanGo mid (some (cmd, acc)) = [⟨cmd, acc.reverse ++ mid⟩]
  | [], cmd, acc, _ => by simp [scanGo]
  | c :: mid, cmd, acc, h => by
    rw [show scanGo (c :: mid) (some (cmd, acc)) = scanGo mid (some (cmd, c :: acc)) by
      simp [scanGo, h c (List.mem_cons_self c mid)]]
    rw [scanGo_args_nil cmd (c :: acc) (fun d hd => h d (List.mem_cons.mpr (Or.inr hd)))]
    simp

theorem scanGo_args_letter : ∀ {mid : List Char} (cmd : Char) (acc : List Char)
    {c2 : Char} {t : List Char}, (∀ c ∈ mid, isLetter c = false) → isLetter c2 = true →
    scanGo (mid ++ c2 :: t) (some (cmd, acc)) =
      ⟨cmd, acc.reverse ++ mid⟩ :: scanGo (c2 :: t) none
  | [], cmd, acc, c2, t, _, hc2 => by
    rw [List.nil_append, List.append_nil]
    show (if isLetter c2 = true then
        RawMatch.mk cmd acc.reverse ::
          (if isCmdChar c2 = true then scanGo t (some (c2, [])) else scanGo t none)
      else scanGo t (some (cmd, c2 :: acc))) = _
    rw [if_pos hc2]
    rfl
  | c :: mid, cmd, acc, c2, t, h, hc2 => by
    rw [List.cons_append]
    rw [show scanGo (c :: (mid ++ c2 :: t)) (some (cmd, acc)) =
        scanGo (mid ++ c2 :: t) (some (cmd, c :: acc)) by
      simp [scanGo, h c (List.mem_cons_self _ _)]]
    rw [scanGo_args_letter cmd (c :: acc) (fun d hd => h d (List.mem_cons.mpr (Or.inr hd))) hc2]
    simp

/-! ## `parsePath` ignores trailing whitespace -/

theorem head?_dropWhile_false {p : Char → Bool} :
    ∀ {l : List Char} {c : Char}, (l.dropWhile p).head? = some c → p c = false
  | [], c, h => by simp at h
  | a :: t, c, h => by
    by_cases ha : p a = true
    · rw [List.dropWhile_cons, if_pos ha] at h
      exact head?_dropWhile_false h
    · rw [List.dropWhile_cons, if_neg ha, List.head?_cons, Option.some_inj] at h
      subst h
      simpa using ha

/-- `(match[2] || '').trim()` depends only on the trimmed run. -/
theorem rawGroup2_trim (cmd : Char) (run : List Char) :
    jsTrimList ((rawGroup2 ⟨cmd, run⟩).getD []) = jsTrimList run := by
  unfold rawGroup2
  simp only
  rcases ha : run.dropWhile (fun c => isJsWS c) with _ | ⟨c, t⟩
  · rw [if_pos (by simp)]
    unfold jsTrimList jsTrimLeft
    rw [ha]
    rfl
  · rw [if_neg (by simp)]
    simp only [Option.getD_some]
    unfold jsTrimList jsTrimLeft
    rw [ha]
    have hc : isJsWS c = false := by
      have := head?_dropWhile_false (p := fun c => isJsWS c) (l := run) (by rw [ha]; rfl)
      simpa using this
    rw [show (c :: t).dropWhile (fun c => isJsWS c) = c :: t by
      rw [List.dropWhile_cons, hc]
      simp]

theorem parseMatch_ws_run {cmd : Char} {r w : List Char}
    (hw : ∀ c ∈ w, isJsWS c = true) :
    parseMatch ⟨cmd, r ++ w⟩ = parseMatch ⟨cmd, r⟩ := by
  have htr : jsTrimList (r ++ w) = jsTrimList r := by
    rcases ha : r.dropWhile (fun c => isJsWS c) with _ | ⟨c, t⟩
    · have hall : ∀ c ∈ r, isJsWS c = true := List.dropWhile_eq_nil_iff.mp ha
      rw [jsTrimList_ws (fun c hc => by
        rcases List.mem_append.mp hc with hc | hc
        · exact hall c hc
        · exact hw c hc), jsTrimList_ws hall]
    · unfold jsTrimList jsTrimLeft
      rw [dropWhile_append_of_ne_nil _ (by rw [ha]; simp), ha,
        jsTrimRight_append_ws hw]
  unfold parseMatch
  simp only [rawGroup2_trim, htr]

theorem scanGo_parse_ws_suffix :
    ∀ (s : List Char) {w : List Char} (st : Option (Char × List Char)),
      (∀ c ∈ w, isJsWS c = true) →
      (scanGo (s ++ w) st).map parseMatch = (scanGo s st).map parseMatch
  | [], w, none, hw => by
    rw [List.nil_append,
      scanGo_none_skip (fun c hc => not_isCmdChar_of_isJsWS (hw c hc))]
    rfl
  | [], w, some (cmd, acc), hw => by
    rw [List.nil_append,
      scanGo_args_nil cmd acc (fun c hc => not_isLetter_of_isJsWS (hw c hc))]
    show [parseMatch ⟨cmd, acc.reverse ++ w⟩] = [parseMatch ⟨cmd, acc.reverse⟩]
    rw [parseMatch_ws_run hw]
  | c :: s, w, none, hw => by
    rw [List.cons_append]
    by_cases hc : isCmdChar c = true
    · rw [show scanGo (c :: (s ++ w)) none = scanGo (s ++ w) (some (c, [])) by
        simp [scanGo, hc],
        show scanGo (c :: s) none = scanGo s (some (c, [])) by simp [scanGo, hc]]
      exact scanGo_parse_ws_suffix s _ hw
    · rw [show scanGo (c :: (s ++ w)) none = scanGo (s ++ w) none by
        simp [scanGo, hc],
        show scanGo (c :: s) none = scanGo s none by simp [scanGo, hc]]
      exact scanGo_parse_ws_suffix s _ hw
  | c :: s, w, some (cmd, acc), hw => by
    rw [List.cons_append]
    by_cases hl : isLetter c = true
    · by_cases hc : isCmdChar c = true
      · rw [show scanGo (c :: (s ++ w)) (some (cmd, acc)) =
            ⟨cmd, acc.reverse⟩ :: scanGo (s ++ w) (some (c, [])) by
          simp [scanGo, hl, hc],
          show scanGo (c :: s) (some (cmd, acc)) =
            ⟨cmd, acc.reverse⟩ :: scanGo s (some (c, [])) by simp [scanGo, hl, hc]]
        simp only [List.map_cons]
        rw [scanGo_parse_ws_suffix s _ hw]
      · rw [show scanGo (c :: (s ++ w)) (some (cmd, acc)) =
            ⟨cmd, acc.reverse⟩ :: scanGo (s ++ w) none by
          simp [scanGo, hl, hc],
          show scanGo (c :: s) (some (cmd, acc)) =
            ⟨cmd, acc.reverse⟩ :: scanGo s none by simp [scanGo, hl, hc]]
        simp only [List.map_cons]
        rw [scanGo_parse_ws_suffix s _ hw]
    · rw [show scanGo (c :: (s ++ w)) (some (cmd, acc)) =
          scanGo (s ++ w) (some (cmd, c :: acc)) by simp [scanGo, hl],
        show scanGo (c :: s) (some (cmd, acc)) =
          scanGo s (some (cmd, c :: acc)) by simp [scanGo, hl]]
      exact scanGo_parse_ws_suffix s _ hw

/-! ## Letters never occur in emitted argument text -/

theorem emitCore_not_letter {c : PathCmd} (hwf : wfCmd c = true) :
    ∀ ch ∈ emitCore c, isLetter ch = false := by
  rw [wfCmd, Bool.and_eq_true] at hwf
  obtain ⟨hcmd0, hall⟩ := hwf
  rw [List.all_eq_true] at hall
  have hfield : ∀ v ∈ schemaFields c, ∀ ch ∈ fieldToString v, isLetter ch = false := by
    intro v hv ch hch
    obtain ⟨q, rfl, ht, hd⟩ := wfVal_elim (hall v hv)
    rw [fieldToString_num _ hd] at hch
    exact ratToString_not_letter ht ch hch
  have hML : (c.command = 'M' ∨ c.command = 'm' ∨ c.command = 'L' ∨ c.command = 'l') →
      ∀ ch ∈ emitCore c, isLetter ch = false := by
    intro hfam ch hch
    have hb : (c.command = 'M' || c.command = 'm' || c.command = 'L' || c.command = 'l')
        = true := by rcases hfam with h | h | h | h <;> rw [h] <;> decide
    have hsf : schemaFields c = [c.x, c.y] := by
      unfold schemaFields
      rw [if_pos hb]
    rw [emitCore, if_pos hb] at hch
    rcases List.mem_append.mp hch with hch | hch
    · exact hfield c.x (by rw [hsf]; simp) ch hch
    · rcases List.mem_cons.mp hch with rfl | hch
      · decide
      · exact hfield c.y (by rw [hsf]; simp) ch hch
  have hCc : (c.command = 'C' ∨ c.command = 'c') →
      ∀ ch ∈ emitCore c, isLetter ch = false := by
    intro hfam ch hch
    have hb1 : (c.command = 'M' || c.command = 'm' || c.command = 'L' || c.command = 'l')
        = false := by rcases hfam with h | h <;> rw [h] <;> decide
    have hb2 : (c.command = 'C' || c.command = 'c') = true := by
      rcases hfam with h | h <;> rw [h] <;> decide
    have hsf : schemaFields c = [c.x1, c.y1, c.x2, c.y2, c.x, c.y] := by
      unfold schemaFields
      rw [if_neg (by rw [hb1]; simp), if_pos hb2]
    rw [emitCore, if_neg (by rw [hb1]; simp), if_pos hb2] at hch
    simp only [List.mem_append, List.mem_cons] at hch
    rcases hch with ((((h | (rfl | h)) | (rfl | h)) | (rfl | h)) | (rfl | h)) | (rfl | h)
    · exact hfield c.x1 (by rw [hsf]; simp) ch h
    · decide
    · exact hfield c.y1 (by rw [hsf]; simp) ch h
    · decide
    · exact hfield c.x2 (by rw [hsf]; simp) ch h
    · decide
    · exact hfield c.y2 (by rw [hsf]; simp) ch h
    · decide
    · exact hfield c.x (by rw [hsf]; simp) ch h
    · decide
    · exact hfield c.y (by rw [hsf]; simp) ch h
  have hAa : (c.command = 'A' ∨ c.command = 'a') →
      ∀ ch ∈ emitCore c, isLetter ch = false := by
    intro hfam ch hch
    have hb1 : (c.command = 'M' || c.command = 'm' || c.command = 'L' || c.command = 'l')
        = false := by rcases hfam with h | h <;> rw [h] <;> decide
    have hb2 : (c.command = 'C' || c.command = 'c') = false := by
      rcases hfam with h | h <;> rw [h] <;> decide
    have hb3 : (c.command = 'A' || c.command = 'a') = true := by
      rcases hfam with h | h <;> rw [h] <;> decide
    have hsf : schemaFields c =
        [c.rx, c.ry, c.xAxisRotation, c.largeArcFlag, c.sweepFlag, c.x, c.y] := by
      unfold schemaFields
      rw [if_neg (by rw [hb1]; simp), if_neg (by rw [hb2]; simp), if_pos hb3]
    rw [emitCore, if_neg (by rw [hb1]; simp), if_neg (by rw [hb2]; simp),
      if_pos hb3] at hch
    simp only [List.mem_append, List.mem_cons] at hch
    rcases hch with (((((h | (rfl | h)) | (rfl | h)) | (rfl | h)) | (rfl | h)) |
      (rfl | h)) | (rfl | h)
    · exact hfield c.rx (by rw [hsf]; simp) ch h
    · decide
    · exact hfield c.ry (by rw [hsf]; simp) ch h
    · decide
    · exact hfield c.xAxisRotation (by rw [hsf]; simp) ch h
    · decide
    · exact hfield c.largeArcFlag (by rw [hsf]; simp) ch h
    · decide
    · exact hfield c.sweepFlag (by rw [hsf]; simp) ch h
    · decide
    · exact hfield c.x (by rw [hsf]; simp) ch h
    · decide
    · exact hfield c.y (by rw [hsf]; simp) ch h
  have hZz : (c.command = 'Z' ∨ c.command = 'z') →
      ∀ ch ∈ emitCore c, isLetter ch = false := by
    intro hfam ch hch
    rw [emitCore, if_neg (by rcases hfam with h | h <;> rw [h] <;> decide),
      if_neg (by rcases hfam with h | h <;> rw [h] <;> decide),
      if_neg (by rcases hfam with h | h <;> rw [h] <;> decide)] at hch
    exact absurd hch (List.not_mem_nil ch)
  rcases isCmdChar_cases c.command hcmd0 with h | h | h | h | h | h | h | h | h | h
  · exact hML (Or.inl h)
  · exact hML (Or.inr (Or.inl h))
  · exact hML (Or.inr (Or.inr (Or.inl h)))
  · exact hML (Or.inr (Or.inr (Or.inr h)))
  · exact hCc (Or.inl h)
  · exact hCc (Or.inr h)
  · exact hAa (Or.inl h)
  · exact hAa (Or.inr h)
  · exact hZz (Or.inl h)
  · exact hZz (Or.inr h)

theorem emitArgs_not_letter {c : PathCmd} (hwf : wfCmd c = true) :
    ∀ ch ∈ emitArgs c, isLetter ch = false := by
  intro ch hch
  rw [emitArgs_decomp] at hch
  rcases List.mem_append.mp hch with hch | hch
  · exact emitCore_not_letter hwf ch hch
  · split at hch
    · rw [List.mem_singleton] at hch
      subst hch
      decide
    · exact absurd hch (List.not_mem_nil ch)

/-! ## Scanning a full emission -/

theorem wfCmd_isCmdChar {c : PathCmd} (hwf : wfCmd c = true) :
    isCmdChar c.command = true := by
  rw [wfCmd, Bool.and_eq_true] at hwf
  exact hwf.1

theorem argTrail_ws {c : PathCmd} {w : List Char} (hw : ∀ ch ∈ w, isJsWS ch = true) :
    ∀ ch ∈ (if isArgful c then [' '] else []) ++ w, isJsWS ch = true := by
  intro ch hch
  rcases List.mem_append.mp hch with hch | hch
  · split at hch
    · rw [List.mem_singleton] at hch
      subst hch
      decide
    · exact absurd hch (List.not_mem_nil ch)
  · exact hw ch hch

theorem scan_emit_join :
    ∀ (pd : List PathCmd) (w : List Char), (∀ c ∈ pd, wfCmd c = true) →
      (∀ ch ∈ w, isJsWS ch = true) →
      (scanGo ((pd.map emitCommand).flatten ++ w) none).map parseMatch = pd.map canonical
  | [], w, _, hw => by
    rw [List.map_nil, List.flatten_nil, List.nil_append,
      scanGo_none_skip (fun c hc => not_isCmdChar_of_isJsWS (hw c hc))]
    rfl
  | [c], w, hwf, hw => by
    have hwfc := hwf c (by simp)
    have hcmdc := wfCmd_isCmdChar hwfc
    rw [List.map_cons, List.map_nil, List.flatten_cons, List.flatten_nil, List.append_nil,
      emitCommand_eq, List.cons_append, List.cons_append]
    rw [show scanGo (c.command :: (' ' :: (emitArgs c ++ w))) none =
        scanGo (' ' :: (emitArgs c ++ w)) (some (c.command, [])) by
      simp [scanGo, hcmdc]]
    rw [scanGo_args_nil _ _ (by
      intro ch hch
      rcases List.mem_cons.mp hch with rfl | hch
      · decide
      · rcases List.mem_append.mp hch with hch | hch
        · exact emitArgs_not_letter hwfc ch hch
        · exact not_isLetter_of_isJsWS (hw ch hch))]
    simp only [List.reverse_nil, List.nil_append, List.map_cons, List.map_nil]
    rw [show emitArgs c ++ w = emitCore c ++ ((if isArgful c then [' '] else []) ++ w) by
      rw [emitArgs_decomp, List.append_assoc]]
    rw [parseMatch_emit hwfc (argTrail_ws hw)]
  | c :: c2 :: pd, w, hwf, hw => by
    have hwfc := hwf c (by simp)
    have hcmdc := wfCmd_isCmdChar hwfc
    have hwfc2 := hwf c2 (by simp)
    have hcmdc2 := wfCmd_isCmdChar hwfc2
    have hjoin2 : (((c2 :: pd).map emitCommand).flatten ++ w) =
        c2.command :: (' ' :: emitArgs c2 ++ ((pd.map emitCommand).flatten ++ w)) := by
      rw [List.map_cons, List.flatten_cons, emitCommand_eq]
      simp [List.cons_append, List.append_assoc]
    rw [List.map_cons, List.flatten_cons, emitCommand_eq]
    rw [show (c.command :: ' ' :: emitArgs c ++ ((c2 :: pd).map emitCommand).flatten) ++ w =
        c.command :: ((' ' :: emitArgs c) ++ ((((c2 :: pd).map emitCommand).flatten) ++ w)) by
      simp [List.cons_append, List.append_assoc]]
    rw [show scanGo (c.command :: ((' ' :: emitArgs c) ++
          ((((c2 :: pd).map emitCommand).flatten) ++ w))) none =
        scanGo ((' ' :: emitArgs c) ++ ((((c2 :: pd).map emitCommand).flatten) ++ w))
          (some (c.command, [])) by
      simp [scanGo, hcmdc]]
    rw [hjoin2]
    rw [scanGo_args_letter _ _ (by
        intro ch hch
        rcases List.mem_cons.mp hch with rfl | hch
        · decide
        · exact emitArgs_not_letter hwfc ch hch)
      (isLetter_of_isCmdChar hcmdc2)]
    simp only [List.reverse_nil, List.nil_append, List.map_cons]
    rw [show (' ' :: emitArgs c : List Char) =
        ' ' :: (emitCore c ++ ((if isArgful c then [' '] else []) ++ [])) by
      rw [emitArgs_decomp, List.append_nil]]
    rw [parseMatch_emit hwfc (argTrail_ws (by simp))]
    have hrec := scan_emit_join (c2 :: pd) w
      (fun d hd => hwf d (List.mem_cons.mpr (Or.inr hd))) hw
    rw [hjoin2] at hrec
    rw [show scanGo (c2.command :: (' ' :: emitArgs c2 ++ ((pd.map emitCommand).flatten ++ w)))
          none =
        scanGo (' ' :: emitArgs c2 ++ ((pd.map emitCommand).flatten ++ w))
          (some (c2.command, [])) by
      simp [scanGo, hcmdc2]] at hrec ⊢
    rw [hrec]
    simp

theorem foldl_emit : ∀ (pd : List PathCmd) (s : List Char),
    pd.foldl (fun s c => s ++ emitCommand c) s = s ++ (pd.map emitCommand).flatten
  | [], s => by simp
  | c :: pd, s => by
    rw [List.foldl_cons, foldl_emit pd (s ++ emitCommand c), List.map_cons, List.flatten_cons]
    simp [List.append_assoc]

theorem mem_takeWhile_ws {l : List Char} :
    ∀ ch ∈ l.takeWhile (fun c => isJsWS c), isJsWS ch = true := by
  intro ch hch
  have := List.takeWhile_prefix (l := l) (p := fun c => isJsWS c)
  exact List.mem_takeWhile_imp hch

/-- The core round trip: re-parsing a generated string recovers the
canonical projection of every command, provided all commands are
well-formed and the trailing-`Z` append does not fire. -/
theorem parse_generate_list (pd : List PathCmd) (dom : Option (List Char))
    (hwf : ∀ c ∈ pd, wfCmd c = true) (hz : zAppendCond dom = false) :
    (scanMatches (generatePathList pd dom)).map parseMatch = pd.map canonical := by
  unfold generatePathList
  rw [hz]
  simp only [Bool.false_eq_true, if_false]
  rw [foldl_emit pd [], List.nil_append]
  rcases pd with _ | ⟨c, pd'⟩
  · rfl
  · have hwfc := hwf c (by simp)
    have hcmdc := wfCmd_isCmdChar hwfc
    set J := ((c :: pd').map emitCommand).flatten with hJ
    have hhead : J.head? = some c.command := by
      rw [hJ, List.map_cons, List.flatten_cons, emitCommand_eq]
      rfl
    have htl : jsTrimLeft J = J := jsTrimLeft_eq_self (fun d hd => by
      rw [hhead, Option.some_inj] at hd
      subst hd
      exact not_isJsWS_of_isLetter (isLetter_of_isCmdChar hcmdc))
    have hdecomp : J = jsTrimRight J ++ (J.reverse.takeWhile (fun c => isJsWS c)).reverse := by
      unfold jsTrimRight
      rw [← List.reverse_append, List.takeWhile_append_dropWhile, List.reverse_reverse]
    have hWws : ∀ ch ∈ (J.reverse.takeWhile (fun c => isJsWS c)).reverse,
        isJsWS ch = true := by
      intro ch hch
      rw [List.mem_reverse] at hch
      exact List.mem_takeWhile_imp hch
    unfold scanMatches jsTrimList
    rw [htl]
    calc (scanGo (jsTrimRight J) none).map parseMatch
        = (scanGo (jsTrimRight J ++
            (J.reverse.takeWhile (fun c => isJsWS c)).reverse) none).map parseMatch :=
          (scanGo_parse_ws_suffix _ _ hWws).symm
      _ = (scanGo J none).map parseMatch := by rw [← hdecomp]
      _ = (c :: pd').map canonical := by
          have := scan_emit_join (c :: pd') [] hwf (by simp)
          rwa [List.append_nil] at this

/-! ## Invariants of `parsePath` output -/

theorem coordAt_isAssigned (coords : List JSNum) (i : Nat) :
    (coordAt coords i).isAssigned = true := by
  unfold coordAt
  rcases coords.get? i with _ | n
  · rfl
  · rfl

theorem coordAt_ne_absent (coords : List JSNum) (i : Nat) :
    coordAt coords i ≠ JVal.absent := by
  unfold coordAt
  rcases coords.get? i with _ | n
  · simp
  · simp

/-- Re-parsing alters nothing: every command object built by `parseMatch`
is its own canonical projection. -/
theorem canonical_parseMatch (m : RawMatch) : canonical (parseMatch m) = parseMatch m := by
  simp only [parseMatch]
  split
  case isTrue h =>
    unfold canonical
    simp only
    have h' : m.cmd = 'Z' ∨ m.cmd = 'z' := by
      rcases Bool.or_eq_true .. |>.mp h with h | h
      · exact Or.inl (of_decide_eq_true h)
      · exact Or.inr (of_decide_eq_true h)
    rw [if_neg (by rcases h' with h2 | h2 <;> rw [h2] <;> decide),
      if_neg (by rcases h' with h2 | h2 <;> rw [h2] <;> decide),
      if_neg (by rcases h' with h2 | h2 <;> rw [h2] <;> decide)]
  case isFalse hz =>
    split
    case isTrue h =>
      unfold canonical
      simp only
      rw [if_pos h]
    case isFalse hM =>
      split
      case isTrue h =>
        unfold canonical
        simp only
        rw [if_neg hM, if_pos h]
      case isFalse hC =>
        split
        case isTrue h =>
          unfold canonical
          simp only
          rw [if_neg hM, if_neg hC, if_pos h]
        case isFalse hA =>
          unfold canonical
          simp only
          rw [if_neg hM, if_neg hC, if_neg hA]

theorem scanGo_cmds :
    ∀ (s : List Char) (st : Option (Char × List Char)),
      (∀ cmd acc, st = some (cmd, acc) → isCmdChar cmd = true) →
      ∀ m ∈ scanGo s st, isCmdChar m.cmd = true
  | [], none, _, m, hm => absurd hm (List.not_mem_nil m)
  | [], some (cmd, acc), hst, m, hm => by
    rw [show scanGo [] (some (cmd, acc)) = [⟨cmd, acc.reverse⟩] from rfl,
      List.mem_singleton] at hm
    subst hm
    exact hst cmd acc rfl
  | c :: s, none, hst, m, hm => by
    by_cases hc : isCmdChar c = true
    · rw [show scanGo (c :: s) none = scanGo s (some (c, [])) by simp [scanGo, hc]] at hm
      exact scanGo_cmds s _ (fun cmd acc h => by
        rw [Option.some_inj] at h
        rw [← (Prod.mk.injEq .. |>.mp h).1]
        exact hc) m hm
    · rw [show scanGo (c :: s) none = scanGo s none by simp [scanGo, hc]] at hm
      exact scanGo_cmds s none (by simp) m hm
  | c :: s, some (cmd, acc), hst, m, hm => by
    by_cases hl : isLetter c = true
    · by_cases hc : isCmdChar c = true
      · rw [show scanGo (c :: s) (some (cmd, acc)) =
            ⟨cmd, acc.reverse⟩ :: scanGo s (some (c, [])) by simp [scanGo, hl, hc]] at hm
        rcases List.mem_cons.mp hm with rfl | hm
        · exact hst cmd acc rfl
        · exact scanGo_cmds s _ (fun cmd2 acc2 h => by
            rw [Option.some_inj] at h
            rw [← (Prod.mk.injEq .. |>.mp h).1]
            exact hc) m hm
      · rw [show scanGo (c :: s) (some (cmd, acc)) =
            ⟨cmd, acc.reverse⟩ :: scanGo s none by simp [scanGo, hl, hc]] at hm
        rcases List.mem_cons.mp hm with rfl | hm
        · exact hst cmd acc rfl
        · exact scanGo_cmds s none (by simp) m hm
    · rw [show scanGo (c :: s) (some (cmd, acc)) =
          scanGo s (some (cmd, c :: acc)) by simp [scanGo, hl]] at hm
      exact scanGo_cmds s _ (fun cmd2 acc2 h => by
        rw [Option.some_inj] at h
        rw [← (Prod.mk.injEq .. |>.mp h).1]
        exact hst cmd acc rfl) m hm

theorem parsePath_cmds {d : String} {c : PathCmd} (hc : c ∈ parsePath d) :
    isCmdChar c.command = true := by
  unfold parsePath at hc
  rw [List.mem_map] at hc
  obtain ⟨m, hm, rfl⟩ := hc
  have := scanGo_cmds d.data none (by simp) m hm
  simp only [parseMatch]
  split
  · exact this
  · split
    · exact this
    · split
      · exact this
      · split
        · exact this
        · exact this

/-! ## Top-level bridges -/

theorem zAppend_eq_domZ (dom : Option String) :
    zAppendCond (dom.map String.data) = domZStatus dom := by
  rcases dom with _ | s
  · rfl
  · show zAppendCond (some s.data) = trailingZStatus s
    unfold zAppendCond trailingZStatus
    show (!s.data.isEmpty && jsEndsWithZ (jsTrimList s.data)) =
      jsEndsWithZ (jsTrimList s.data)
    rcases hs : s.data with _ | ⟨c, t⟩
    · decide
    · simp

theorem parse_generate_path (pd : List PathCmd) (dom : Option String)
    (hwf : ∀ c ∈ pd, wfCmd c = true) (hz : domZStatus dom = false) :
    parsePath (generatePath pd dom) = pd.map canonical := by
  unfold parsePath generatePath
  exact parse_generate_list pd (dom.map String.data) hwf
    (by rw [zAppend_eq_domZ, hz])

theorem parsePath_canonical (d : String) :
    (parsePath d).map canonical = parsePath d := by
  unfold parsePath
  rw [List.map_map]
  exact List.map_congr_left (fun m _ => canonical_parseMatch m)

/-! ## Claim C1 -/

/-- C1 (amended): for a path string of supported commands whose parse is
fully numeric with every schema field in the decimal-notation range
(zero or `10 ^ -6 <= |q| < 10 ^ 21`, so `toString` does not switch to
exponent notation) and which does *not* end in an uppercase `Z` after
trimming — with the DOM element's `'d'` attribute matching that
trailing-`Z` status — `generatePath` after `parsePath` reproduces exactly
the same command sequence with numerically equal coordinates.  (As
stated, over *every* supported-command string, the claim fails twice
over: any input ending in `Z` gains an extra `Z` command, because the
loop in `generatePath` re-emits the parsed `Z` *and* the trailing-`Z`
check appends another; and a coordinate outside the decimal-notation
range is re-emitted in exponent notation, whose letter `e` terminates a
scanner match on re-parse; see the counterexample for both.) -/
theorem C1_roundtrip_amended (d : String) (dom : Option String)
    (hwf : ∀ c ∈ parsePath d, wfCmd c = true)
    (hmatch : domZStatus dom = trailingZStatus d)
    (hz : trailingZStatus d = false) :
    parsePath (generatePath (parsePath d) dom) = parsePath d := by
  rw [parse_generate_path _ _ hwf (by rw [hmatch, hz])]
  exact parsePath_canonical d

/-- Witness for C1: a concrete two-command path round-trips exactly. -/
theorem C1_roundtrip_witness :
    parsePath (generatePath (parsePath "M 10,10 L 20,20") (some "M 10,10 L 20,20")) =
      parsePath "M 10,10 L 20,20" :=
  C1_roundtrip_amended "M 10,10 L 20,20" (some "M 10,10 L 20,20")
    (by decide) (by decide) (by decide)

/-- Counterexample to C1 as stated, in both failure modes.  `"M 1,2 Z"`
is built only from supported commands, its parse is fully well-formed,
and the DOM attribute matches the input's trailing-`Z` status, yet the
round trip produces `M, Z, Z` instead of `M, Z` (the regenerated string
is `"M 1,2 Z Z"`).  And `"M 0.0000001,1"` (no trailing `Z`, fully
numeric parse) regenerates as `"M 1e-7,1"` — exponent notation — whose
`e` ends the scanner match, so the re-parse is a single `M` command with
`x = 1` and `y` undefined. -/
theorem C1_counterexample :
    (domZStatus (some "M 1,2 Z") = trailingZStatus "M 1,2 Z" ∧
      (∀ c ∈ parsePath "M 1,2 Z", wfCmd c = true) ∧
      generatePath (parsePath "M 1,2 Z") (some "M 1,2 Z") = "M 1,2 Z Z" ∧
      parsePath (generatePath (parsePath "M 1,2 Z") (some "M 1,2 Z")) ≠
        parsePath "M 1,2 Z") ∧
    (domZStatus (some "M 0.0000001,1") = trailingZStatus "M 0.0000001,1" ∧
      trailingZStatus "M 0.0000001,1" = false ∧
      parsePath "M 0.0000001,1" =
        [{ command := 'M', x := .defined (.num (Rat.divInt 1 10000000)),
           y := .defined (.num 1) }] ∧
      generatePath (parsePath "M 0.0000001,1") (some "M 0.0000001,1") = "M 1e-7,1" ∧
      parsePath (generatePath (parsePath "M 0.0000001,1") (some "M 0.0000001,1")) =
        [{ command := 'M', x := .defined (.num 1), y := .undef }] ∧
      parsePath (generatePath (parsePath "M 0.0000001,1") (some "M 0.0000001,1")) ≠
        parsePath "M 0.0000001,1") := by
  refine ⟨⟨by decide, by decide, by decide, by decide⟩,
    by decide, by decide, by decide, by decide, by decide, by decide⟩

/-! ## Claim C4 -/

/-- C4: `generatePath` is compositional: it emits, for each command in
order, the command letter followed by that command's fields in fixed
positional order (`emitCommand`), concatenates the results, appends a
trailing `'Z'` *iff* the original path string re-read from the live DOM
element ends (after trimming) with `'Z'` — independently of the passed-in
data — and trims the result. -/
theorem C4_generatePath_emission (pathData : List PathCmd) (originalPathD : Option String) :
    generatePath pathData originalPathD =
      ⟨jsTrimList ((pathData.map emitCommand).flatten ++
        (if domZStatus originalPathD then ['Z'] else []))⟩ := by
  unfold generatePath generatePathList
  rw [foldl_emit pathData [], List.nil_append, zAppend_eq_domZ]
  rcases domZStatus originalPathD with _ | _
  · simp
  · simp

/-! ## Claim C10 -/

/-- C10: the trailing-closure check of `generatePath` is case-sensitive:
when the live `'d'` attribute ends (after trimming) with a lowercase
`'z'`, no trailing `'Z'` is appended — the output is identical to that
for an absent (`null`) attribute, so lowercase closure is not preserved
by the out-of-band mechanism. -/
theorem C10_lowercase_z (pathData : List PathCmd) (s : String)
    (h : (jsTrimList s.data).getLast? = some 'z') :
    generatePath pathData (some s) = generatePath pathData none := by
  unfold generatePath
  show (⟨generatePathList pathData (some s.data)⟩ : String) = ⟨generatePathList pathData none⟩
  have hz : zAppendCond (some s.data) = false := by
    unfold zAppendCond jsEndsWithZ
    show (!s.data.isEmpty && decide ((jsTrimList s.data).getLast? = some 'Z')) = false
    rw [h]
    simp
  unfold generatePathList
  rw [hz]
  rfl

/-- Witness for C10: with a backing attribute `"M 1,2 z"`, the lowercase
closure is dropped: the regenerated string is the same as with no
attribute at all. -/
theorem C10_lowercase_z_witness :
    generatePath (parsePath "M 1,2 z") (some "M 1,2 z") =
      generatePath (parsePath "M 1,2 z") none :=
  C10_lowercase_z (parsePath "M 1,2 z") "M 1,2 z" (by decide)

/-! ## Claim C8 -/

/-- C8: the set of numeric fields present on a command object produced by
`parsePath` is fully determined by its command letter: `M`/`m`/`L`/`l`
carry exactly x, y; `C`/`c` exactly x1, y1, x2, y2, x, y; `A`/`a` exactly
rx, ry, xAxisRotation, largeArcFlag, sweepFlag, x, y; `Z`/`z` none.
(A field is present when it was assigned — possibly with the value
`undefined`, as happens for truncated argument lists.) -/
theorem C8_field_presence (d : String) (c : PathCmd) (hc : c ∈ parsePath d) :
    presentMask c = maskFor c.command := by
  unfold parsePath at hc
  rw [List.mem_map] at hc
  obtain ⟨m, hm, rfl⟩ := hc
  simp only [parseMatch]
  split
  case isTrue h =>
    have h' : m.cmd = 'Z' ∨ m.cmd = 'z' := by
      rcases Bool.or_eq_true .. |>.mp h with h | h
      · exact Or.inl (of_decide_eq_true h)
      · exact Or.inr (of_decide_eq_true h)
    simp only [presentMask, maskFor, JVal.isAssigned]
    rw [if_neg (by rcases h' with h2 | h2 <;> rw [h2] <;> decide),
      if_neg (by rcases h' with h2 | h2 <;> rw [h2] <;> decide),
      if_neg (by rcases h' with h2 | h2 <;> rw [h2] <;> decide)]
  case isFalse hz =>
    split
    case isTrue h =>
      simp only [presentMask, coordAt_isAssigned]
      simp only [maskFor, JVal.isAssigned]
      rw [if_pos h]
    case isFalse hM =>
      split
      case isTrue h =>
        simp only [presentMask, coordAt_isAssigned]
        simp only [maskFor, JVal.isAssigned]
        rw [if_neg hM, if_pos h]
      case isFalse hC =>
        split
        case isTrue h =>
          simp only [presentMask, coordAt_isAssigned]
          simp only [maskFor, JVal.isAssigned]
          rw [if_neg hM, if_neg hC, if_pos h]
        case isFalse hA =>
          simp only [presentMask, maskFor, JVal.isAssigned]
          rw [if_neg hM, if_neg hC, if_neg hA]

/-- Witness for C8 at a concrete parse. -/
theorem C8_field_presence_witness :
    presentMask { command := 'M', x := .defined (.num 1), y := .defined (.num 2) } =
      maskFor 'M' :=
  C8_field_presence "M 1,2"
    { command := 'M', x := .defined (.num 1), y := .defined (.num 2) } (by decide)

/-! ## Claim C9 -/

/-- C9: command letters outside the supported set (`H`, `V`, `S`, `Q`,
`T`, ... and their lowercase forms) are silently dropped: every command
object `parsePath` produces carries a supported letter (so no such letter
yields a command object, and the model is total, so no error is raised);
concretely, an `H` command and its argument vanish from the output. -/
theorem C9_unsupported_dropped :
    (∀ (d : String) (c : PathCmd), c ∈ parsePath d → isCmdChar c.command = true) ∧
    parsePath "M 1,2 H 5 L 3,4" = parsePath "M 1,2 L 3,4" :=
  ⟨fun _ _ hc => parsePath_cmds hc, by decide⟩

/-- Witness for C9's universal half at a concrete parse. -/
theorem C9_unsupported_dropped_witness :
    isCmdChar ({ command := 'M', x := .defined (.num 1), y := .defined (.num 2) } :
      PathCmd).command = true :=
  C9_unsupported_dropped.1 "M 1,2"
    { command := 'M', x := .defined (.num 1), y := .defined (.num 2) } (by decide)

/-! ## Claim C3 -/

theorem coordAt_map_get (tokens : List (List Char)) (i : Nat) :
    coordAt (tokens.map jsNumberList) i =
      (tokens.get? i).elim JVal.undef (fun t => .defined (jsNumberList t)) := by
  unfold coordAt
  rw [List.get?_map]
  rcases tokens.get? i with _ | t
  · rfl
  · rfl

/-- C3 (amended): `parsePath` never signals an error (the embedded
function is total); for a non-`Z` command match, each schema field in
positional order is `Number(token)` of the corresponding argument token
when that token exists — so a non-numeric token yields a `NaN` field —
while a *missing* (truncated) token leaves the field `undefined`, not
`NaN` as the claim states. -/
theorem C3_malformed_args (d : String) (m : RawMatch) (hm : m ∈ scanMatches d.data)
    (hnz : ¬ (m.cmd = 'Z' ∨ m.cmd = 'z')) (i : Nat)
    (hi : i < (schemaFields (parseMatch m)).length) :
    (schemaFields (parseMatch m)).getD i JVal.absent =
      ((tokensOf m).get? i).elim JVal.undef (fun t => .defined (jsNumberList t)) := by
  have hcmd := scanGo_cmds d.data none (by simp) m hm
  have hZb : (m.cmd = 'Z' || m.cmd = 'z') = false := by
    rcases hb : (m.cmd = 'Z' || m.cmd = 'z') with _ | _
    · rfl
    · exfalso
      apply hnz
      rcases Bool.or_eq_true .. |>.mp hb with h | h
      · exact Or.inl (of_decide_eq_true h)
      · exact Or.inr (of_decide_eq_true h)
  have htok : splitSep (jsTrimList ((rawGroup2 m).getD [])) = tokensOf m := rfl
  rcases isCmdChar_cases m.cmd hcmd with h | h | h | h | h | h | h | h | h | h
  all_goals (
    first
    | exact absurd (Or.inl h) hnz
    | exact absurd (Or.inr h) hnz
    | (have hfam : (m.cmd = 'M' || m.cmd = 'm' || m.cmd = 'L' || m.cmd = 'l') = true := by
        rw [h]; decide
       have hpm : parseMatch m =
          { command := m.cmd,
            x := coordAt ((tokensOf m).map jsNumberList) 0,
            y := coordAt ((tokensOf m).map jsNumberList) 1 } := by
        simp only [parseMatch]
        rw [if_neg (by rw [hZb]; simp), if_pos hfam, htok]
       rw [hpm] at hi ⊢
       have hsf : schemaFields
          { command := m.cmd,
            x := coordAt ((tokensOf m).map jsNumberList) 0,
            y := coordAt ((tokensOf m).map jsNumberList) 1 } =
          [coordAt ((tokensOf m).map jsNumberList) 0,
           coordAt ((tokensOf m).map jsNumberList) 1] := by
        unfold schemaFields
        rw [if_pos hfam]
       rw [hsf] at hi ⊢
       rw [List.length_cons, List.length_cons, List.length_nil] at hi
       interval_cases i
       · exact coordAt_map_get _ 0
       · exact coordAt_map_get _ 1)
    | (have hfam1 : (m.cmd = 'M' || m.cmd = 'm' || m.cmd = 'L' || m.cmd = 'l') = false := by
        rw [h]; decide
       have hfam : (m.cmd = 'C' || m.cmd = 'c') = true := by rw [h]; decide
       have hpm : parseMatch m =
          { command := m.cmd,
            x1 := coordAt ((tokensOf m).map jsNumberList) 0,
            y1 := coordAt ((tokensOf m).map jsNumberList) 1,
            x2 := coordAt ((tokensOf m).map jsNumberList) 2,
            y2 := coordAt ((tokensOf m).map jsNumberList) 3,
            x := coordAt ((tokensOf m).map jsNumberList) 4,
            y := coordAt ((tokensOf m).map jsNumberList) 5 } := by
        simp only [parseMatch]
        rw [if_neg (by rw [hZb]; simp), if_neg (by rw [hfam1]; simp), if_pos hfam, htok]
       rw [hpm] at hi ⊢
       have hsf : schemaFields
          { command := m.cmd,
            x1 := coordAt ((tokensOf m).map jsNumberList) 0,
            y1 := coordAt ((tokensOf m).map jsNumberList) 1,
            x2 := coordAt ((tokensOf m).map jsNumberList) 2,
            y2 := coordAt ((tokensOf m).map jsNumberList) 3,
            x := coordAt ((tokensOf m).map jsNumberList) 4,
            y := coordAt ((tokensOf m).map jsNumberList) 5 } =
          [coordAt ((tokensOf m).map jsNumberList) 0,
           coordAt ((tokensOf m).map jsNumberList) 1,
           coordAt ((tokensOf m).map jsNumberList) 2,
           coordAt ((tokensOf m).map jsNumberList) 3,
           coordAt ((tokensOf m).map jsNumberList) 4,
           coordAt ((tokensOf m).map jsNumberList) 5] := by
        unfold schemaFields
        rw [if_neg (by rw [hfam1]; simp), if_pos hfam]
       rw [hsf] at hi ⊢
       simp only [List.length_cons, List.length_nil] at hi
       interval_cases i
       · exact coordAt_map_get _ 0
       · exact coordAt_map_get _ 1
       · exact coordAt_map_get _ 2
       · exact coordAt_map_get _ 3
       · exact coordAt_map_get _ 4
       · exact coordAt_map_get _ 5)
    | (have hfam1 : (m.cmd = 'M' || m.cmd = 'm' || m.cmd = 'L' || m.cmd = 'l') = false := by
        rw [h]; decide
       have hfam2 : (m.cmd = 'C' || m.cmd = 'c') = false := by rw [h]; decide
       have hfam : (m.cmd = 'A' || m.cmd = 'a') = true := by rw [h]; decide
       have hpm : parseMatch m =
          { command := m.cmd,
            rx := coordAt ((tokensOf m).map jsNumberList) 0,
            ry := coordAt ((tokensOf m).map jsNumberList) 1,
            xAxisRotation := coordAt ((tokensOf m).map jsNumberList) 2,
            largeArcFlag := coordAt ((tokensOf m).map jsNumberList) 3,
            sweepFlag := coordAt ((tokensOf m).map jsNumberList) 4,
            x := coordAt ((tokensOf m).map jsNumberList) 5,
            y := coordAt ((tokensOf m).map jsNumberList) 6 } := by
        simp only [parseMatch]
        rw [if_neg (by rw [hZb]; simp), if_neg (by rw [hfam1]; simp),
          if_neg (by rw [hfam2]; simp), if_pos hfam, htok]
       rw [hpm] at hi ⊢
       have hsf : schemaFields
          { command := m.cmd,
            rx := coordAt ((tokensOf m).map jsNumberList) 0,
            ry := coordAt ((tokensOf m).map jsNumberList) 1,
            xAxisRotation := coordAt ((tokensOf m).map jsNumberList) 2,
            largeArcFlag := coordAt ((tokensOf m).map jsNumberList) 3,
            sweepFlag := coordAt ((tokensOf m).map jsNumberList) 4,
            x := coordAt ((tokensOf m).map jsNumberList) 5,
            y := coordAt ((tokensOf m).map jsNumberList) 6 } =
          [coordAt ((tokensOf m).map jsNumberList) 0,
           coordAt ((tokensOf m).map jsNumberList) 1,
           coordAt ((tokensOf m).map jsNumberList) 2,
           coordAt ((tokensOf m).map jsNumberList) 3,
           coordAt ((tokensOf m).map jsNumberList) 4,
           coordAt ((tokensOf m).map jsNumberList) 5,
           coordAt ((tokensOf m).map jsNumberList) 6] := by
        unfold schemaFields
        rw [if_neg (by rw [hfam1]; simp), if_neg (by rw [hfam2]; simp), if_pos hfam]
       rw [hsf] at hi ⊢
       simp only [List.length_cons, List.length_nil] at hi
       interval_cases i
       · exact coordAt_map_get _ 0
       · exact coordAt_map_get _ 1
       · exact coordAt_map_get _ 2
       · exact coordAt_map_get _ 3
       · exact coordAt_map_get _ 4
       · exact coordAt_map_get _ 5
       · exact coordAt_map_get _ 6))

/-- Witness for C3 (amended): in `"M 5"` the second token is missing and
the `y` field of the parsed command is `undefined`. -/
theorem C3_malformed_args_witness :
    (schemaFields (parseMatch ⟨'M', " 5".data⟩)).getD 1 JVal.absent =
      ((tokensOf ⟨'M', " 5".data⟩).get? 1).elim JVal.undef
        (fun t => .defined (jsNumberList t)) :=
  C3_malformed_args "M 5" ⟨'M', " 5".data⟩ (by decide) (by decide) 1 (by decide)

/-- Counterexample to C3 as stated: the truncated input `"M 5"` produces
a `y` field holding `undefined`, not `NaN`. -/
theorem C3_counterexample :
    parsePath "M 5" = [{ command := 'M', x := .defined (.num 5), y := .undef }] ∧
    (JVal.undef ≠ JVal.defined JSNum.nan) := by
  refine ⟨by decide, by decide⟩

/-! ## Claim C6 -/

theorem mutateCmd_command (c : PathCmd) (u : UpdateData) :
    (mutateCmd c u).command = c.command := by
  unfold mutateCmd
  split
  · rfl
  · split
    · rfl
    · rfl

theorem mutateCmd_wf (c : PathCmd) (u : UpdateData) (hc : wfCmd c = true)
    (hx : wfVal (JVal.defined (JSNum.num u.x)) = true)
    (hy : wfVal (JVal.defined (JSNum.num u.y)) = true) :
    wfCmd (mutateCmd c u) = true := by
  rw [wfCmd, Bool.and_eq_true] at hc
  rw [wfCmd, Bool.and_eq_true, mutateCmd_command]
  refine ⟨hc.1, ?_⟩
  have h2 := hc.2
  by_cases hf1 : (c.command = 'M' || c.command = 'm' || c.command = 'L' || c.command = 'l') = true
  · have hsc : schemaFields c = [c.x, c.y] := by
      unfold schemaFields; rw [if_pos hf1]
    rw [hsc] at h2
    simp only [List.all_cons, List.all_nil, Bool.and_eq_true, Bool.and_true] at h2
    obtain ⟨w1, w2⟩ := h2
    unfold mutateCmd
    split
    · have hs : schemaFields { c with x1 := JVal.defined (JSNum.num u.x), y1 := JVal.defined (JSNum.num u.y) } = [c.x, c.y] := by
        unfold schemaFields; rw [if_pos hf1]
      rw [hs]
      simp only [List.all_cons, List.all_nil, Bool.and_eq_true, Bool.and_true]
      exact ⟨w1, w2⟩
    · split
      · have hs : schemaFields { c with x2 := JVal.defined (JSNum.num u.x), y2 := JVal.defined (JSNum.num u.y) } = [c.x, c.y] := by
          unfold schemaFields; rw [if_pos hf1]
        rw [hs]
        simp only [List.all_cons, List.all_nil, Bool.and_eq_true, Bool.and_true]
        exact ⟨w1, w2⟩
      · have hs : schemaFields { c with x := JVal.defined (JSNum.num u.x), y := JVal.defined (JSNum.num u.y) } =
            [JVal.defined (JSNum.num u.x), JVal.defined (JSNum.num u.y)] := by
          unfold schemaFields; rw [if_pos hf1]
        rw [hs]
        simp only [List.all_cons, List.all_nil, Bool.and_eq_true, Bool.and_true]
        exact ⟨hx, hy⟩
  · by_cases hf2 : (c.command = 'C' || c.command = 'c') = true
    · have hsc : schemaFields c = [c.x1, c.y1, c.x2, c.y2, c.x, c.y] := by
        unfold schemaFields; rw [if_neg hf1, if_pos hf2]
      rw [hsc] at h2
      simp only [List.all_cons, List.all_nil, Bool.and_eq_true, Bool.and_true] at h2
      obtain ⟨w1, w2, w3, w4, w5, w6⟩ := h2
      unfold mutateCmd
      split
      · have hs : schemaFields { c with x1 := JVal.defined (JSNum.num u.x), y1 := JVal.defined (JSNum.num u.y) } =
            [JVal.defined (JSNum.num u.x), JVal.defined (JSNum.num u.y),
             c.x2, c.y2, c.x, c.y] := by
          unfold schemaFields; rw [if_neg hf1, if_pos hf2]
        rw [hs]
        simp only [List.all_cons, List.all_nil, Bool.and_eq_true, Bool.and_true]
        exact ⟨hx, hy, w3, w4, w5, w6⟩
      · split
        · have hs : schemaFields { c with x2 := JVal.defined (JSNum.num u.x), y2 := JVal.defined (JSNum.num u.y) } =
              [c.x1, c.y1, JVal.defined (JSNum.num u.x), JVal.defined (JSNum.num u.y),
               c.x, c.y] := by
            unfold schemaFields; rw [if_neg hf1, if_pos hf2]
          rw [hs]
          simp only [List.all_cons, List.all_nil, Bool.and_eq_true, Bool.and_true]
          exact ⟨w1, w2, hx, hy, w5, w6⟩
        · have hs : schemaFields { c with x := JVal.defined (JSNum.num u.x), y := JVal.defined (JSNum.num u.y) } =
              [c.x1, c.y1, c.x2, c.y2,
               JVal.defined (JSNum.num u.x), JVal.defined (JSNum.num u.y)] := by
            unfold schemaFields; rw [if_neg hf1, if_pos hf2]
          rw [hs]
          simp only [List.all_cons, List.all_nil, Bool.and_eq_true, Bool.and_true]
          exact ⟨w1, w2, w3, w4, hx, hy⟩
    · by_cases hf3 : (c.command = 'A' || c.command = 'a') = true
      · have hsc : schemaFields c =
            [c.rx, c.ry, c.xAxisRotation, c.largeArcFlag, c.sweepFlag, c.x, c.y] := by
          unfold schemaFields; rw [if_neg hf1, if_neg hf2, if_pos hf3]
        rw [hsc] at h2
        simp only [List.all_cons, List.all_nil, Bool.and_eq_true, Bool.and_true] at h2
        obtain ⟨w1, w2, w3, w4, w5, w6, w7⟩ := h2
        unfold mutateCmd
        split
        · have hs : schemaFields { c with x1 := JVal.defined (JSNum.num u.x), y1 := JVal.defined (JSNum.num u.y) } =
              [c.rx, c.ry, c.xAxisRotation, c.largeArcFlag, c.sweepFlag, c.x, c.y] := by
            unfold schemaFields; rw [if_neg hf1, if_neg hf2, if_pos hf3]
          rw [hs]
          simp only [List.all_cons, List.all_nil, Bool.and_eq_true, Bool.and_true]
          exact ⟨w1, w2, w3, w4, w5, w6, w7⟩
        · split
          · have hs : schemaFields { c with x2 := JVal.defined (JSNum.num u.x), y2 := JVal.defined (JSNum.num u.y) } =
                [c.rx, c.ry, c.xAxisRotation, c.largeArcFlag, c.sweepFlag, c.x, c.y] := by
              unfold schemaFields; rw [if_neg hf1, if_neg hf2, if_pos hf3]
            rw [hs]
            simp only [List.all_cons, List.all_nil, Bool.and_eq_true, Bool.and_true]
            exact ⟨w1, w2, w3, w4, w5, w6, w7⟩
          · have hs : schemaFields { c with x := JVal.defined (JSNum.num u.x), y := JVal.defined (JSNum.num u.y) } =
                [c.rx, c.ry, c.xAxisRotation, c.largeArcFlag, c.sweepFlag,
                 JVal.defined (JSNum.num u.x), JVal.defined (JSNum.num u.y)] := by
              unfold schemaFields; rw [if_neg hf1, if_neg hf2, if_pos hf3]
            rw [hs]
            simp only [List.all_cons, List.all_nil, Bool.and_eq_true, Bool.and_true]
            exact ⟨w1, w2, w3, w4, w5, hx, hy⟩
      · unfold mutateCmd
        split
        · have hs : schemaFields { c with x1 := JVal.defined (JSNum.num u.x), y1 := JVal.defined (JSNum.num u.y) } = [] := by
            unfold schemaFields; rw [if_neg hf1, if_neg hf2, if_neg hf3]
          rw [hs]
          rfl
        · split
          · have hs : schemaFields { c with x2 := JVal.defined (JSNum.num u.x), y2 := JVal.defined (JSNum.num u.y) } = [] := by
              unfold schemaFields; rw [if_neg hf1, if_neg hf2, if_neg hf3]
            rw [hs]
            rfl
          · have hs : schemaFields { c with x := JVal.defined (JSNum.num u.x), y := JVal.defined (JSNum.num u.y) } = [] := by
              unfold schemaFields; rw [if_neg hf1, if_neg hf2, if_neg hf3]
            rw [hs]
            rfl

/-- C6 (amended): for a path whose parse is fully numeric with every
schema field in the decimal-notation range (zero or
`10 ^ -6 <= |q| < 10 ^ 21`), which does not end (after trimming) with an
uppercase `Z`, and with finite in-range update coordinates, `updatePath`
changes exactly the command at `index` — to the canonical projection of
that command with its designated fields (`x1`/`y1` for pointType `C1`,
`x2`/`y2` for `C2`, `x`/`y` otherwise) overwritten by the new
coordinates — and every other command in the re-parsed re-serialized
path is unchanged.  (As stated, over *every* parsed path, the claim
fails twice over: when the live attribute ends in `Z` the
re-serialization appends a duplicate `Z` command, and a coordinate
outside the decimal-notation range is re-emitted in exponent notation
whose `e` corrupts the untouched command on re-parse; see the
counterexample for both.) -/
theorem C6_updatePath_frame (attrD : String) (u : UpdateData)
    (hwf : ∀ c ∈ parsePath attrD, wfCmd c = true)
    (hz : trailingZStatus attrD = false)
    (hx : wfVal (JVal.defined (JSNum.num u.x)) = true)
    (hy : wfVal (JVal.defined (JSNum.num u.y)) = true) :
    parsePath (updatePath attrD u) =
      (parsePath attrD).set u.index
        (canonical (mutateCmd ((parsePath attrD).getD u.index default) u)) ∧
    ∀ j, j ≠ u.index →
      (parsePath (updatePath attrD u)).get? j = (parsePath attrD).get? j := by
  have hmain : parsePath (updatePath attrD u) =
      (parsePath attrD).set u.index
        (canonical (mutateCmd ((parsePath attrD).getD u.index default) u)) := by
    simp only [updatePath]
    by_cases hi : u.index < (parsePath attrD).length
    · have hwf' : ∀ c ∈ (parsePath attrD).set u.index
          (mutateCmd ((parsePath attrD).getD u.index default) u), wfCmd c = true := by
        intro c hcm
        rcases List.mem_or_eq_of_mem_set hcm with h | rfl
        · exact hwf c h
        · refine mutateCmd_wf _ _ (hwf _ ?_) hx hy
          rw [List.getD_eq_getElem _ default hi]
          exact List.getElem_mem hi
      rw [parse_generate_path _ (some attrD) hwf'
        (show domZStatus (some attrD) = false from hz)]
      rw [List.map_set, parsePath_canonical]
    · have hle : (parsePath attrD).length ≤ u.index := Nat.le_of_not_lt hi
      rw [List.set_eq_of_length_le hle, List.set_eq_of_length_le hle]
      rw [parse_generate_path _ (some attrD) hwf
        (show domZStatus (some attrD) = false from hz)]
      exact parsePath_canonical attrD
  refine ⟨hmain, ?_⟩
  intro j hj
  rw [hmain, List.get?_eq_getElem?, List.get?_eq_getElem?,
    List.getElem?_set_ne (Ne.symm hj)]

/-- Witness for C6 (amended) at a concrete two-command path: updating
index 0's endpoint to (5,5) rewrites command 0 and leaves command 1
untouched. -/
theorem C6_updatePath_frame_witness :
    parsePath (updatePath "M 1,2 L 3,4" ⟨5, 5, 0, "endpoint"⟩) =
      (parsePath "M 1,2 L 3,4").set 0
        (canonical (mutateCmd ((parsePath "M 1,2 L 3,4").getD 0 default)
          ⟨5, 5, 0, "endpoint"⟩)) ∧
    (parsePath (updatePath "M 1,2 L 3,4" ⟨5, 5, 0, "endpoint"⟩)).get? 1 =
      (parsePath "M 1,2 L 3,4").get? 1 := by
  have h := C6_updatePath_frame "M 1,2 L 3,4" ⟨5, 5, 0, "endpoint"⟩
    (by decide) (by decide) (by decide) (by decide)
  exact ⟨h.1, h.2 1 (by decide)⟩

/-- Counterexample to C6 as stated, in both failure modes.  On the
closed path `"M 1,2 Z"`, updating index 0's endpoint re-serializes to
`"M 5,5 Z Z"` — the appended duplicate `Z` means the other commands are
*not* left untouched (the path gains a third command).  And on
`"M 0.0000001,1 L 2,3"` (no trailing `Z`), updating index 1's endpoint
to (5,5) re-serializes to `"M 1e-7,1 L 5,5"`: the *untouched* command 0
re-parses as `x = 1`, `y` undefined, not its original coordinates. -/
theorem C6_counterexample :
    (updatePath "M 1,2 Z" ⟨5, 5, 0, "endpoint"⟩ = "M 5,5 Z Z" ∧
      (parsePath "M 1,2 Z").length = 2 ∧
      (parsePath (updatePath "M 1,2 Z" ⟨5, 5, 0, "endpoint"⟩)).length = 3) ∧
    (trailingZStatus "M 0.0000001,1 L 2,3" = false ∧
      updatePath "M 0.0000001,1 L 2,3" ⟨5, 5, 1, "endpoint"⟩ = "M 1e-7,1 L 5,5" ∧
      (parsePath "M 0.0000001,1 L 2,3").get? 0 =
        some { command := 'M', x := .defined (.num (Rat.divInt 1 10000000)),
               y := .defined (.num 1) } ∧
      (parsePath (updatePath "M 0.0000001,1 L 2,3" ⟨5, 5, 1, "endpoint"⟩)).get? 0 =
        some { command := 'M', x := .defined (.num 1), y := .undef } ∧
      (parsePath (updatePath "M 0.0000001,1 L 2,3" ⟨5, 5, 1, "endpoint"⟩)).get? 0 ≠
        (parsePath "M 0.0000001,1 L 2,3").get? 0) := by
  refine ⟨⟨by decide, by decide, by decide⟩,
    by decide, by decide, by decide, by decide, by decide⟩

/-! ## Claim C2 -/

theorem find_overwrite (ps : List (String × JData)) (name : String) (data : JData)
    (h : ps.any (fun p => p.1 = name) = true) :
    (ps.map (fun p => if p.1 = name then (name, data) else p)).find?
      (fun p => p.1 = name) = some (name, data) := by
  induction ps with
  | nil => simp at h
  | cons p ps ih =>
    rw [List.map_cons]
    by_cases hp : p.1 = name
    · rw [if_pos hp]
      rw [List.find?_cons_of_pos]
      simp
    · rw [if_neg hp, List.find?_cons_of_neg]
      · refine ih ?_
        rw [List.any_cons] at h
        rcases hb : ps.any (fun q => q.1 = name) with _ | _
        · rw [hb] at h
          simp [hp] at h
        · rfl
      · simp [hp]

theorem find_append_of_none (ps qs : List (String × JData)) (name : String)
    (h : ps.any (fun p => p.1 = name) = false) :
    (ps ++ qs).find? (fun p => p.1 = name) = qs.find? (fun p => p.1 = name) := by
  induction ps with
  | nil => rfl
  | cons p ps ih =>
    rw [List.any_cons] at h
    have h1 : (decide (p.1 = name)) = false := by
      rcases hb : (decide (p.1 = name)) with _ | _
      · rfl
      · rw [hb] at h
        simp at h
    have h2 : ps.any (fun p => p.1 = name) = false := by
      rcases hb : ps.any (fun p => p.1 = name) with _ | _
      · rfl
      · rw [hb, h1] at h
        simp at h
    rw [List.cons_append, List.find?_cons_of_neg, ih h2]
    simp [of_decide_eq_false h1]

/-- C2 (amended): for *truthy* stored data, `savePreset(name, data)`
followed by `getPreset(name)` returns exactly the stored value (the
model's value equality is JS reference equality for objects, which carry
an identity tag).  For falsy data (`null`, `undefined`, `false`, `0`,
`NaN`, `""`) the claim fails: `getPreset` is `presets[name] || null` and
collapses the stored value to `null`; see the counterexample. -/
theorem C2_save_get (presets : List (String × JData)) (name : String) (data : JData)
    (ht : truthy data = true) :
    getPresetL (savePresetL presets name data) name = data := by
  unfold getPresetL savePresetL
  by_cases hany : presets.any (fun p => p.1 = name) = true
  · rw [if_pos hany, find_overwrite presets name data hany]
    show (if truthy data then data else JData.vnull) = data
    rw [if_pos ht]
  · have h' : presets.any (fun p => p.1 = name) = false := by
      rcases hb : presets.any (fun p => p.1 = name) with _ | _
      · rfl
      · exact absurd hb hany
    rw [if_neg hany, find_append_of_none presets _ name h']
    rw [show ([(name, data)] : List (String × JData)).find? (fun p => p.1 = name) =
      some (name, data) from by simp]
    show (if truthy data then data else JData.vnull) = data
    rw [if_pos ht]

/-- Witness for C2 at a concrete truthy blob. -/
theorem C2_save_get_witness :
    getPresetL (savePresetL [] "shape" (JData.vobj 0)) "shape" = JData.vobj 0 :=
  C2_save_get [] "shape" (JData.vobj 0) (by decide)

/-- Counterexample to C2 as stated: storing the falsy value `0` and
reading it back yields `null`, not the stored value. -/
theorem C2_counterexample :
    getPresetL (savePresetL [] "a" (JData.vnum (JSNum.num 0))) "a" = JData.vnull ∧
    JData.vnull ≠ JData.vnum (JSNum.num 0) := by
  refine ⟨by decide, by decide⟩

/-! ## Claim C7 -/

/-- C7: when the save-button selector resolves, `setup` performs exactly
one save synchronously (via the seed `saveButton.click()`): the manager
state afterwards is the old state with the counter incremented once and a
single `savePreset` of the `getInitialData()` snapshot under the name
`presetNamePrefix + counter`; on a fresh manager the seeded preset is
named `presetNamePrefix + "1"`. -/
theorem C7_setup_seed (cfg : SetupConfig) (st : ManagerState)
    (h : cfg.saveButtonExists = true) :
    setup cfg st =
      { presets := savePresetL st.presets (cfg.presetNamePrefix ++ natToString (st.presetCounter + 1)) (cfg.getInitialData ()), presetCounter := st.presetCounter + 1 } ∧
    (setup cfg { presets := [], presetCounter := 0 }).presets =
      [(cfg.presetNamePrefix ++ "1", cfg.getInitialData ())] := by
  constructor
  · unfold setup
    rw [if_pos h]
    rfl
  · unfold setup
    rw [if_pos h]
    rfl

/-- Witness for C7 on a fresh manager with prefix `"preset"`. -/
theorem C7_setup_seed_witness :
    setup { presetNamePrefix := "preset", getInitialData := fun _ => JData.vobj 7, saveButtonExists := true } { presets := [], presetCounter := 0 } =
      { presets := savePresetL [] ("preset" ++ natToString 1) (JData.vobj 7), presetCounter := 1 } ∧
    (setup { presetNamePrefix := "preset", getInitialData := fun _ => JData.vobj 7, saveButtonExists := true } { presets := [], presetCounter := 0 }).presets =
      [("preset" ++ "1", JData.vobj 7)] :=
  C7_setup_seed
    { presetNamePrefix := "preset", getInitialData := fun _ => JData.vobj 7, saveButtonExists := true } { presets := [], presetCounter := 0 } (by decide)

/-! ## Claim C5 -/

theorem any_keys_eq (ps : List (String × JData)) (name : String) :
    (ps.map Prod.fst).any (fun k => k = name) = ps.any (fun p => p.1 = name) := by
  induction ps with
  | nil => rfl
  | cons p ps ih => simp [List.any_cons, ih]

theorem keys_savePresetL (ps : List (String × JData)) (name : String) (data : JData) :
    (savePresetL ps name data).map Prod.fst =
      if (ps.map Prod.fst).any (fun k => k = name) then ps.map Prod.fst
      else ps.map Prod.fst ++ [name] := by
  rw [any_keys_eq]
  unfold savePresetL
  by_cases h : ps.any (fun p => p.1 = name) = true
  · rw [if_pos h, if_pos h, List.map_map]
    refine List.map_congr_left ?_
    intro p _
    show Prod.fst (if p.1 = name then (name, data) else p) = p.1
    by_cases hp : p.1 = name
    · rw [if_pos hp]
      exact hp.symm
    · rw [if_neg hp]
  · rw [if_neg h, if_neg h, List.map_append]
    rfl

theorem keys_applySaves_gen (saves : List (String × JData)) (ps : List (String × JData)) :
    (List.foldl (fun st p => savePresetL st p.1 p.2) ps saves).map Prod.fst =
      List.foldl (fun a n => if a.any (fun k => k = n) then a else a ++ [n])
        (ps.map Prod.fst) (saves.map Prod.fst) := by
  induction saves generalizing ps with
  | nil => rfl
  | cons s rest ih =>
    rw [List.foldl_cons, List.map_cons, List.foldl_cons, ih, keys_savePresetL]

theorem addKeys_firstOcc (names : List String) (acc : List String) :
    List.foldl (fun a n => if a.any (fun k => k = n) then a else a ++ [n]) acc names =
      acc ++ (firstOcc names).filter (fun m => !acc.any (fun k => k = m)) := by
  induction names generalizing acc with
  | nil => simp [firstOcc]
  | cons n ns ih =>
    rw [List.foldl_cons]
    by_cases h : acc.any (fun k => k = n) = true
    · rw [show (if acc.any (fun k => k = n) then acc else acc ++ [n]) = acc from by rw [if_pos h]]
      rw [ih]
      congr 1
      rw [show firstOcc (n :: ns) = n :: (firstOcc ns).filter (fun x => !(x = n)) from rfl]
      simp only [List.filter_cons]
      rw [h]
      rw [if_neg (by decide)]
      rw [List.filter_filter]
      refine List.filter_congr ?_
      intro a _
      by_cases han : a = n
      · subst han
        rw [h]
        simp
      · simp [han]
    · rw [show (if acc.any (fun k => k = n) then acc else acc ++ [n]) = acc ++ [n] from by rw [if_neg h]]
      rw [ih]
      rw [show firstOcc (n :: ns) = n :: (firstOcc ns).filter (fun x => !(x = n)) from rfl]
      simp only [List.filter_cons]
      have hf : acc.any (fun k => k = n) = false := by
        rcases hb : acc.any (fun k => k = n) with _ | _
        · rfl
        · exact absurd hb h
      rw [hf]
      rw [if_pos (by decide)]
      rw [List.append_assoc, List.singleton_append]
      congr 2
      rw [List.filter_filter]
      refine List.filter_congr ?_
      intro a _
      rw [List.any_append]
      by_cases han : a = n
      · subst han
        simp
      · simp [han]
        intro _
        exact fun hc => han hc.symm

theorem keysOf_applySaves (saves : List (String × JData)) :
    (applySaves saves).map Prod.fst = firstOcc (saves.map Prod.fst) := by
  unfold applySaves
  rw [keys_applySaves_gen saves []]
  rw [show (([] : List (String × JData)).map Prod.fst) = ([] : List String) from rfl]
  rw [addKeys_firstOcc, List.nil_append]
  refine List.filter_eq_self.mpr ?_
  intro a _
  rfl

theorem mem_firstOcc (l : List String) (n : String) : n ∈ firstOcc l ↔ n ∈ l := by
  induction l with
  | nil => simp [firstOcc]
  | cons k ks ih =>
    rw [show firstOcc (k :: ks) = k :: (firstOcc ks).filter (fun x => !(x = k)) from rfl]
    constructor
    · intro h
      rcases List.mem_cons.mp h with rfl | h
      · exact List.mem_cons_self _ _
      · exact List.mem_cons_of_mem k (ih.mp (List.mem_filter.mp h).1)
    · intro h
      by_cases hk : n = k
      · subst hk
        exact List.mem_cons_self n _
      · rcases List.mem_cons.mp h with rfl | h
        · exact absurd rfl hk
        · refine List.mem_cons_of_mem k (List.mem_filter.mpr ⟨ih.mpr h, ?_⟩)
          simp [hk]

theorem nodup_firstOcc (l : List String) : (firstOcc l).Nodup := by
  induction l with
  | nil => exact List.nodup_nil
  | cons k ks ih =>
    rw [show firstOcc (k :: ks) = k :: (firstOcc ks).filter (fun x => !(x = k)) from rfl]
    rw [List.nodup_cons]
    refine ⟨?_, ih.filter _⟩
    intro hmem
    rw [List.mem_filter] at hmem
    simp at hmem

theorem insertByVal_perm (x : String) (l : List String) :
    List.Perm (insertByVal x l) (x :: l) := by
  induction l with
  | nil => exact List.Perm.refl [x]
  | cons y ys ih =>
    rw [show insertByVal x (y :: ys) =
      (if digitsValNat x.data ≤ digitsValNat y.data then x :: y :: ys
       else y :: insertByVal x ys) from rfl]
    by_cases h : digitsValNat x.data ≤ digitsValNat y.data
    · rw [if_pos h]
    · rw [if_neg h]
      exact (List.Perm.cons y ih).trans (List.Perm.swap x y ys)

theorem sortByVal_perm (l : List String) : List.Perm (sortByVal l) l := by
  induction l with
  | nil => exact List.Perm.refl []
  | cons x xs ih =>
    show List.Perm (List.foldr insertByVal [] (x :: xs)) (x :: xs)
    rw [List.foldr_cons]
    exact (insertByVal_perm x _).trans (List.Perm.cons x ih)

theorem objectKeysOrder_perm (l : List String) : List.Perm (objectKeysOrder l) l := by
  unfold objectKeysOrder
  refine ((sortByVal_perm _).append_right _).trans ?_
  exact List.filter_append_perm _ l

/-- C5 (amended): after any sequence of `savePreset` calls,
`getPresetNames` returns each saved name exactly once (overwrites add no
entries) — but in `Object.keys` order: names that are array-index
numerals first in ascending numeric order, then the remaining names in
first-save insertion order.  Only when no saved name is an array-index
numeral is the result the insertion order of first saves, as the claim
states; see the counterexample with numeric names. -/
theorem C5_names (saves : List (String × JData)) :
    getPresetNamesL (applySaves saves) =
      objectKeysOrder (firstOcc (saves.map Prod.fst)) ∧
    (∀ n, n ∈ getPresetNamesL (applySaves saves) ↔ n ∈ saves.map Prod.fst) ∧
    (getPresetNamesL (applySaves saves)).Nodup ∧
    ((saves.map Prod.fst).all (fun k => !isArrayIndexKey k) = true →
      getPresetNamesL (applySaves saves) = firstOcc (saves.map Prod.fst)) := by
  have heq : getPresetNamesL (applySaves saves) =
      objectKeysOrder (firstOcc (saves.map Prod.fst)) := by
    unfold getPresetNamesL
    rw [keysOf_applySaves]
  refine ⟨heq, ?_, ?_, ?_⟩
  · intro n
    rw [heq]
    exact ((objectKeysOrder_perm _).mem_iff).trans (mem_firstOcc _ n)
  · rw [heq]
    exact ((objectKeysOrder_perm _).nodup_iff).mpr (nodup_firstOcc _)
  · intro hall
    rw [heq]
    unfold objectKeysOrder
    have h1 : (firstOcc (saves.map Prod.fst)).filter (fun k => isArrayIndexKey k) = [] := by
      refine List.filter_eq_nil_iff.mpr ?_
      intro a ha
      have h3 := List.all_eq_true.mp hall a ((mem_firstOcc _ _).mp ha)
      rcases hb : isArrayIndexKey a with _ | _
      · simp [hb]
      · rw [hb] at h3
        simp at h3
    have h2 : (firstOcc (saves.map Prod.fst)).filter (fun k => !isArrayIndexKey k) =
        firstOcc (saves.map Prod.fst) := by
      refine List.filter_eq_self.mpr ?_
      intro a ha
      exact List.all_eq_true.mp hall a ((mem_firstOcc _ _).mp ha)
    rw [h1, h2]
    rfl

/-- Witness for C5: three saves, one an overwrite, with ordinary
(non-numeric) names yield the first-save insertion order. -/
theorem C5_names_witness :
    getPresetNamesL (applySaves
      [("a", JData.vobj 0), ("b", JData.vobj 1), ("a", JData.vobj 2)]) =
      firstOcc (([("a", JData.vobj 0), ("b", JData.vobj 1),
        ("a", JData.vobj 2)] : List (String × JData)).map Prod.fst) :=
  (C5_names [("a", JData.vobj 0), ("b", JData.vobj 1), ("a", JData.vobj 2)]).2.2.2
    (by decide)

/-- Counterexample to C5 as stated: numeric names are reordered —
saving `"2"` then `"1"` yields `["1", "2"]`, not the insertion order
`["2", "1"]`. -/
theorem C5_counterexample :
    ([("2", JData.vobj 0), ("1", JData.vobj 1)] : List (String × JData)).map Prod.fst =
      ["2", "1"] ∧
    getPresetNamesL (applySaves [("2", JData.vobj 0), ("1", JData.vobj 1)]) =
      ["1", "2"] ∧
    (["1", "2"] : List String) ≠ ["2", "1"] := by
  refine ⟨by decide, by decide, by decide⟩
